import Mathlib

/-!
Shallow embedding of the queueing-network node engine of `qnetsim/node.py`
(class `Node`), together with the data holders it manipulates.

Modelling conventions, fixed once for the whole file:

* The code runs under Python 2.  Timestamp fields (`arrival_date`,
  `service_time`, `service_start_date`, `service_end_date`, `exit_date`)
  hold either a float or the sentinel `False`; in every context in which
  `node.py` uses them (comparisons `>`, `<`, `==`, `min`, and addition)
  Python treats `False` exactly as the number `0`, so timestamps are
  modelled as `ℚ` with `0` standing for the unset sentinel `False`.
* The string sentinel `"Inf"` (used for `next_event_date` and
  `node_capacity`) compares greater than every number under Python 2's
  mixed-type ordering, and `min(xs + ["Inf"])` is the numeric minimum of
  `xs`, or `"Inf"` when `xs` is empty.  These fields are modelled as
  `Option _` with `none` standing for `"Inf"`.
* An individual's `server` field holds either a `Server` object or
  `False`; it is modelled as `Option ServerRef`.  The blocking digraph's
  vertices are the strings `str(server)` (unique per `(node, number)`
  pair) plus, potentially, the string `str(False)`; a vertex is modelled
  as `Option ServerRef`, `none` standing for `str(False)`.
* Python exceptions (a failed `list.index`, `free_servers[0]` on an empty
  list, `.cust` on `False`, out-of-range list indexing) are modelled by
  returning `none` from an `Option`-valued function.
* The opaque random collaborators are explicit arguments: the
  service-duration sampler is a function `S : ℕ → ℕ → ℚ` standing for
  `simulation.service_times[node_id][customer_class]()`, and the routing
  draw of `next_node` is an explicit argument `rnd : ℚ` standing for
  `random()`.
-/

/-- Reference to a server, standing for the string `str(server)`
(`"Server number at Node node_id"`), unique per (node id, server number). -/
abbrev ServerRef := ℕ × ℕ

/-- Vertex of the blocking digraph: `some r` is the string `str(server)`,
`none` is the string obtained from a `False` server field. -/
abbrev Vertex := Option ServerRef

/-- Modelled from the spec: class `Server` of `server.py` is not under
`src/`; modelled from spec section 3 ("busy flag, reference to occupant
individual") and its uses in `node.py` (`svr.busy`, `server.cust`,
`Server(self, i+1)`). -/
structure Server where
  node_id : ℕ
  number : ℕ
  busy : Bool
  cust : Option ℕ
deriving DecidableEq, Repr

/-- String representation `str(server)` of a server, as a `ServerRef`. -/
def Server.ref (sv : Server) : ServerRef := (sv.node_id, sv.number)

/-- Modelled from the spec: class `DataRecord` of `data_record.py` is not
under `src/`; modelled from spec section 4.8 (record of
`(arrival_date, service_time, service_start_date, exit_date, node_id)`)
and the constructor call in `Node.write_individual_record`. -/
structure DataRecord where
  arrival_date : ℚ
  service_time : ℚ
  service_start_date : ℚ
  exit_date : ℚ
  node_id : ℕ
deriving DecidableEq, Repr

/-- Modelled from the spec: class `Individual` of `individual.py` is not
under `src/`; fields are modelled from spec section 3 and the attribute
accesses in `node.py`.  `data_records` is a per-node-id dictionary of
record lists in Python; since every record carries its `node_id`, it is
modelled as one flat list in append order. -/
structure Individual where
  id_number : ℕ
  customer_class : ℕ
  arrival_date : ℚ
  service_time : ℚ
  service_start_date : ℚ
  service_end_date : ℚ
  exit_date : ℚ
  is_blocked : Bool
  server : Option ServerRef
  data_records : List DataRecord
deriving DecidableEq, Repr

/-- State of one `Node` object: the attributes set in `Node.__init__` that
the node engine reads or writes (`simulation`-owned attributes live in
`SimState` below). -/
structure Node where
  id_number : ℕ
  c : ℕ
  node_capacity : Option ℕ
  transition_row : List (List ℚ)
  cum_transition_row : List (List ℚ)
  individuals : List Individual
  servers : List Server
  next_event_date : Option ℚ
  blocked_queue : List (ℕ × ℕ)
deriving DecidableEq, Repr

/-- Edge list of the blocking digraph (`simulation.digraph`, a networkx
`DiGraph`: no parallel edges, so insertion is idempotent). -/
structure BGraph where
  edges : List (Vertex × Vertex)
deriving DecidableEq, Repr

/-- Adds the edge `(u, v)` (`digraph.add_edge`), keeping at most one copy
as networkx does. -/
def BGraph.addEdge (g : BGraph) (u v : Vertex) : BGraph :=
  if (u, v) ∈ g.edges then g else ⟨g.edges ++ [(u, v)]⟩

/-- Removes every edge incident to `v`
(`digraph.remove_edges_from(in_edges(v) + out_edges(v))`). -/
def BGraph.removeIncident (g : BGraph) (v : Vertex) : BGraph :=
  ⟨g.edges.filter (fun e => !(decide (e.1 = v) || decide (e.2 = v)))⟩

/-- Modelled from the spec: the `Simulation` object (`simulation.py` is
not under `src/`) as far as `node.py` touches it: the list of transitive
nodes (`simulation.transitive_nodes`, where the node at index `k` has
`id_number = k + 1` and `simulation.nodes[i]` for `1 ≤ i ≤ n` is the
transitive node of id `i`), the individuals collected by the exit node
`simulation.nodes[-1]` (a pure sink of unbounded capacity), the
per-node occupancy counters `simulation.state` (pairs
(in-service count, blocked count), indexed by `id_number - 1`), and the
blocking digraph `simulation.digraph`. -/
structure SimState where
  nodes : List Node
  exit_individuals : List Individual
  state : List (ℤ × ℤ)
  digraph : BGraph
deriving DecidableEq, Repr

/-- Destination of a routed individual: a transitive node (by 0-based
index into `SimState.nodes`) or the distinguished exit node. -/
inductive Dest where
  | node (idx : ℕ)
  | exit
deriving DecidableEq, Repr

/-- Replaces the node at index `k` by `f` applied to it. -/
def updNode (s : SimState) (k : ℕ) (f : Node → Node) : SimState :=
  { s with nodes := s.nodes.modify f k }

/-- Python 2 comparison `x < cap` where `cap` is an `int` or the string
`"Inf"` (numbers sort below strings, so `x < "Inf"` is `True`). -/
def ltCap (x : ℕ) (cap : Option ℕ) : Bool :=
  match cap with
  | none => true
  | some m => decide (x < m)

/-- Lookup `simulation.nodes[i]` for `i ≥ 1` as a (0-based index, node)
pair; `none` models the arrival node at index 0 (which has none of the
attributes `node.py` would use) and an out-of-range `IndexError`. -/
def getNodePy (s : SimState) (i : ℕ) : Option (ℕ × Node) :=
  match i with
  | 0 => none
  | j + 1 => (s.nodes.get? j).map (fun n => (j, n))

/-- Translation of `Node.find_cum_transition_row` (lines 55-75): running
prefix sums of each class's transition row, starting from `sum_p = 0`. -/
def find_cum_transition_row (rows : List (List ℚ)) : List (List ℚ) :=
  rows.map (cumFrom 0)
where
  /-- Inner loop of `find_cum_transition_row` with accumulator `sum_p`. -/
  cumFrom (acc : ℚ) : List ℚ → List ℚ
    | [] => []
    | p :: rest => (acc + p) :: cumFrom (acc + p) rest

/-- Translation of the part of `Node.__init__` (lines 17-53) that sets the
engine-visible node attributes: `c` servers numbered from 1, empty
individual and blocked-queue lists, `next_event_date = "Inf"`, and the
cumulative transition row precomputed by `find_cum_transition_row`. -/
def Node.init (id_number c : ℕ) (node_capacity : Option ℕ)
    (transition_row : List (List ℚ)) : Node :=
  { id_number := id_number
    c := c
    node_capacity := node_capacity
    transition_row := transition_row
    cum_transition_row := find_cum_transition_row transition_row
    individuals := []
    servers := (List.range c).map (fun i => ⟨id_number, i + 1, false, none⟩)
    next_event_date := none
    blocked_queue := [] }

/-- Translation of `Node.find_free_server` (lines 496-501):
`free_servers[0]`, `none` on the `IndexError` when every server is busy. -/
def find_free_server (n : Node) : Option Server :=
  (n.servers.filter (fun sv => !sv.busy)).head?

/-- Edge-adding loop of `Node.attach_server` (lines 105-109): for each
`(origin_id, individual_id)` in this node's `blocked_queue`, locate the
first individual with that id at `simulation.nodes[origin_id]` (`none`
models the `IndexError` when there is none) and, unless it is the
individual being attached (compared by id, modelling Python object
identity under globally unique ids), add the digraph edge from its server
to the newly attached server `v`. -/
def addBlockEdges (selfId : ℕ) (v : Vertex) :
    List (ℕ × ℕ) → SimState → Option SimState
  | [], s => some s
  | (oid, iid) :: rest, s =>
    match getNodePy s oid with
    | none => none
    | some (_, onode) =>
      match onode.individuals.find? (fun j => decide (j.id_number = iid)) with
      | none => none
      | some ind2 =>
        let s' := if ind2.id_number ≠ selfId
          then { s with digraph := s.digraph.addEdge ind2.server v }
          else s
        addBlockEdges selfId v rest s'

/-- Translation of `Node.attach_server` (lines 97-109): mark the server
busy with occupant `ind`, point `ind.server` at it, then add a blocking
edge from every individual currently waiting in this node's
`blocked_queue` to the newly attached server.  The attached individual is
returned explicitly because at the accept call site it is not yet a
member of `individuals`. -/
def attach_server (s : SimState) (nIdx : ℕ) (sv : Server)
    (ind : Individual) : Option (Individual × SimState) :=
  match s.nodes.get? nIdx with
  | none => none
  | some n =>
    let s1 := updNode s nIdx (fun m =>
      { m with servers := m.servers.map (fun w =>
          if w.ref = sv.ref then { w with busy := true, cust := some ind.id_number } else w) })
    let ind1 := { ind with server := some sv.ref }
    (addBlockEdges ind.id_number (some sv.ref) n.blocked_queue s1).map
      (fun s2 => (ind1, s2))

/-- Translation of `Node.detatch_server` (lines 112-120): clear the
server's occupant and busy flag, clear `ind.server`, and remove every
digraph edge incident to the server. -/
def detatch_server (s : SimState) (nIdx : ℕ) (svRef : ServerRef)
    (ind : Individual) : Individual × SimState :=
  let s1 := updNode s nIdx (fun m =>
    { m with servers := m.servers.map (fun w =>
        if w.ref = svRef then { w with busy := false, cust := none } else w) })
  let s2 := { s1 with digraph := s1.digraph.removeIncident (some svRef) }
  ({ ind with server := none }, s2)

/-- Translation of `Node.change_state_accept` (lines 368-385):
`state[id_number-1][0] += 1`. -/
def change_state_accept (s : SimState) (idNum : ℕ) : SimState :=
  { s with state := s.state.modify (fun p => (p.1 + 1, p.2)) (idNum - 1) }

/-- Translation of `Node.change_state_block` (lines 348-366):
`state[id_number-1][1] += 1; state[id_number-1][0] -= 1`. -/
def change_state_block (s : SimState) (idNum : ℕ) : SimState :=
  { s with state := s.state.modify (fun p => (p.1 - 1, p.2 + 1)) (idNum - 1) }

/-- Translation of `Node.change_state_release` (lines 322-346): decrement
the blocked counter when the departing individual is marked blocked, the
in-service counter otherwise. -/
def change_state_release (s : SimState) (idNum : ℕ) (ind : Individual) : SimState :=
  if ind.is_blocked then
    { s with state := s.state.modify (fun p => (p.1, p.2 - 1)) (idNum - 1) }
  else
    { s with state := s.state.modify (fun p => (p.1 - 1, p.2)) (idNum - 1) }

/-- Translation of `Node.write_individual_record` (lines 600-649): build
the record from the individual's current timestamps and this node's id,
append it, then reset the five timestamp fields to `False` (modelled as
`0`). -/
def write_individual_record (idNum : ℕ) (ind : Individual) : Individual :=
  let record : DataRecord :=
    ⟨ind.arrival_date, ind.service_time, ind.service_start_date, ind.exit_date, idNum⟩
  { ind with
    data_records := ind.data_records ++ [record]
    arrival_date := 0
    service_time := 0
    service_start_date := 0
    service_end_date := 0
    exit_date := 0 }

/-- Translation of `Node.begin_service_if_possible_accept` (lines
458-494), with the sampler `S` standing for
`simulation.service_times[id_number][customer_class]()`: stamp the
arrival date, sample the service time, and, only when fewer than `c`
individuals are present, attach a free server (`none` on the `IndexError`
when none is free) and set the service start and end dates. -/
def begin_service_if_possible_accept (S : ℕ → ℕ → ℚ) (s : SimState)
    (nIdx : ℕ) (ind : Individual) (t : ℚ) : Option (Individual × SimState) :=
  match s.nodes.get? nIdx with
  | none => none
  | some n =>
    let ind1 := { ind with
      arrival_date := t
      service_time := S n.id_number ind.customer_class }
    if n.individuals.length < n.c then
      match find_free_server n with
      | none => none
      | some sv =>
        (attach_server s nIdx sv ind1).map (fun p =>
          ({ p.1 with
              service_start_date := t
              service_end_date := t + p.1.service_time }, p.2))
    else some (ind1, s)

/-- Translation of `Node.accept` (lines 387-456): clear the exit date and
blocked flag, run `begin_service_if_possible_accept`, append the
individual to the tail of the present list, and increment the in-service
counter.  No capacity test appears anywhere in this path. -/
def accept (S : ℕ → ℕ → ℚ) (s : SimState) (nIdx : ℕ)
    (ind : Individual) (t : ℚ) : Option SimState :=
  let ind0 := { ind with exit_date := 0, is_blocked := false }
  (begin_service_if_possible_accept S s nIdx ind0 t).map (fun p =>
    let s1 := updNode p.2 nIdx (fun n =>
      { n with individuals := n.individuals ++ [p.1] })
    let idNum := ((s.nodes.get? nIdx).map Node.id_number).getD 0
    change_state_accept s1 idNum)

/-- Writes back an individual object at its position in a node's present
list, modelling a Python in-place mutation of a list member. -/
def setIndAt (idx : ℕ) (ind1 : Individual) (m : Node) : Node :=
  { m with individuals := m.individuals.set idx ind1 }

/-- Appends one `(origin id, individual id)` pair to a node's
`blocked_queue` (`next_node.blocked_queue.append((self.id_number,
individual.id_number))`). -/
def pushBlq (nid iid : ℕ) (dn : Node) : Node :=
  { dn with blocked_queue := dn.blocked_queue ++ [(nid, iid)] }

/-- Loop body of `Node.begin_service_if_possible_release` (lines 268-273)
over the service positions `0, …, c-1`: at each position holding an
individual without a server, attach a free server and set its service
start and end dates (the end date is start plus the individual's stored
`service_time`, sampled when it was accepted).  Python iterates over the
slice `individuals[:c]`, whose membership the loop body never changes, so
iterating by position is equivalent. -/
def bsrAux (t : ℚ) (nIdx : ℕ) : List ℕ → SimState → Option SimState
  | [], s => some s
  | i :: rest, s =>
    match s.nodes.get? nIdx with
    | none => none
    | some n =>
      match n.individuals.get? i with
      | none => bsrAux t nIdx rest s
      | some ind =>
        if ind.server.isSome then bsrAux t nIdx rest s
        else
          match find_free_server n with
          | none => none
          | some sv =>
            match attach_server s nIdx sv ind with
            | none => none
            | some (ind1, s1) =>
              let ind2 := { ind1 with
                service_start_date := t
                service_end_date := t + ind1.service_time }
              bsrAux t nIdx rest (updNode s1 nIdx (setIndAt i ind2))

/-- Translation of `Node.begin_service_if_possible_release` (lines
233-273): when at least `c` individuals are present, give a server and
service dates to every serverless individual among the first `c`
positions; otherwise do nothing. -/
def begin_service_if_possible_release (s : SimState) (nIdx : ℕ)
    (t : ℚ) : Option SimState :=
  match s.nodes.get? nIdx with
  | none => none
  | some n =>
    if n.individuals.length ≥ n.c then bsrAux t nIdx (List.range n.c) s
    else some s

/-- Translation of `Node.block_individual` (lines 159-192), locating the
individual by its position `indIdx` in this node's present list (Python
receives the object itself; it is the list member at that position): set
`is_blocked`, move one unit of occupancy from in-service to blocked,
append `(this id, individual id)` to the destination's `blocked_queue`,
and add a digraph edge from the individual's server to every server of
the destination node. -/
def block_individual (s : SimState) (nIdx indIdx destIdx : ℕ) : Option SimState :=
  match s.nodes.get? nIdx with
  | none => none
  | some n =>
    match n.individuals.get? indIdx with
    | none => none
    | some ind =>
      let ind1 := { ind with is_blocked := true }
      let s1 := updNode s nIdx (setIndAt indIdx ind1)
      let s2 := change_state_block s1 n.id_number
      let s3 := updNode s2 destIdx (pushBlq n.id_number ind.id_number)
      match s3.nodes.get? destIdx with
      | none => none
      | some d =>
        some { s3 with
          digraph := d.servers.foldl
            (fun g svr => g.addEdge ind1.server (some svr.ref)) s3.digraph }

/-- Filter of the comprehension in `Node.update_next_event_date` (line
547): the individuals among the first `c` that are not blocked and whose
`service_end_date` is strictly greater than `current_time`. -/
def qualifying (n : Node) (t : ℚ) : List Individual :=
  (n.individuals.take n.c).filter
    (fun ind => !ind.is_blocked && decide (ind.service_end_date > t))

/-- Translation of `Node.update_next_event_date` (lines 503-547): the
minimum `service_end_date` among the first `c` individuals that are not
blocked and whose `service_end_date` is strictly greater than
`current_time`, with `min(... + ["Inf"])` modelled by `List.min?`
(`none` = `"Inf"` when no individual qualifies). -/
def update_next_event_date (n : Node) (t : ℚ) : Node :=
  { n with next_event_date :=
      ((qualifying n t).map (fun ind => ind.service_end_date)).min? }

/-- Translation of `Node.next_node` (lines 549-598) with the uniform draw
`rnd` passed explicitly: the first index `p` of the class's cumulative
row with `rnd < row[p]` names `simulation.transitive_nodes[p]` (`none`
models the `IndexError` when `p` is out of range, or when the class has
no row); when no entry beats the draw the result is the exit node
`simulation.nodes[-1]`. -/
def next_nodeD (s : SimState) (n : Node) (rnd : ℚ) (cls : ℕ) : Option Dest :=
  match n.cum_transition_row.get? cls with
  | none => none
  | some row =>
    match row.findIdx? (fun q => decide (rnd < q)) with
    | some p => (s.nodes.get? p).map (fun _ => Dest.node p)
    | none => some Dest.exit

/-- Admission test of `Node.finish_service` (line 154):
`len(next_node.individuals) < next_node.node_capacity`; the exit node has
capacity `"Inf"`, so the test always passes there. -/
def destHasSpace (s : SimState) : Dest → Bool
  | Dest.node j =>
    match s.nodes.get? j with
    | none => false
    | some d => ltCap d.individuals.length d.node_capacity
  | Dest.exit => true

/-- Modelled from the spec: `accept` on the exit node
(`exit_node.py` is not under `src/`); per spec sections 2 and 3 the exit
node is a pure sink that collects arriving individuals. -/
def acceptDest (S : ℕ → ℕ → ℚ) (s : SimState) (dest : Dest)
    (ind : Individual) (t : ℚ) : Option SimState :=
  match dest with
  | Dest.node j => accept S s j ind t
  | Dest.exit => some { s with exit_individuals := s.exit_individuals ++ [ind] }

mutual

/-- Translation of `Node.release` (lines 195-231), with `fuel` bounding
the depth of the mutual recursion through
`release_blocked_individual` (each level consumes one blocked-queue
entry, so any sufficiently large fuel computes the Python call): pop the
individual at `indIdx` from node `nIdx`; stamp its `exit_date`; detach
its server (`none` models the `AttributeError` when it has none); write
its visit record; update the occupancy counters; release one blocked
individual from this node's own `blocked_queue`; begin service for the
freed slot; finally `accept` the individual at the destination. -/
def release (S : ℕ → ℕ → ℚ) :
    ℕ → SimState → ℕ → ℕ → Dest → ℚ → Option SimState
  | 0, _, _, _, _, _ => none
  | fuel + 1, s, nIdx, indIdx, dest, t =>
    match s.nodes.get? nIdx with
    | none => none
    | some n =>
      match n.individuals.get? indIdx with
      | none => none
      | some ind0 =>
        let s1 := updNode s nIdx (fun m =>
          { m with individuals := m.individuals.eraseIdx indIdx })
        let ind1 := { ind0 with exit_date := t }
        match ind1.server with
        | none => none
        | some svRef =>
          let p := detatch_server s1 nIdx svRef ind1
          let ind3 := write_individual_record n.id_number p.1
          let s3 := change_state_release p.2 n.id_number ind3
          match release_blocked_individual S fuel s3 nIdx t with
          | none => none
          | some s4 =>
            match begin_service_if_possible_release s4 nIdx t with
            | none => none
            | some s5 => acceptDest S s5 dest ind3 t

/-- Translation of `Node.release_blocked_individual` (lines 276-320), with
`fuel` as in `release`: when this node's `blocked_queue` is non-empty,
read its head `(origin_id, individual_id)`, locate that individual's
position at `simulation.nodes[origin_id]` (`none` models the `ValueError`
when absent), pop the queue head, and `release` the individual from its
origin node with this node as destination. -/
def release_blocked_individual (S : ℕ → ℕ → ℚ) :
    ℕ → SimState → ℕ → ℚ → Option SimState
  | 0, _, _, _ => none
  | fuel + 1, s, nIdx, t =>
    match s.nodes.get? nIdx with
    | none => none
    | some n =>
      match n.blocked_queue with
      | [] => some s
      | (oid, iid) :: _ =>
        match getNodePy s oid with
        | none => none
        | some (oIdx, onode) =>
          match onode.individuals.findIdx?
              (fun j => decide (j.id_number = iid)) with
          | none => none
          | some ri =>
            let s1 := updNode s nIdx (fun m =>
              { m with blocked_queue := m.blocked_queue.drop 1 })
            release S fuel s1 oIdx ri (Dest.node nIdx) t

end

/-- Translation of `Node.finish_service` (lines 128-157): select, among
the first `c` individuals, the first one whose `service_end_date` equals
this node's `next_event_date` (`none` models the `ValueError` when no
date matches, in particular when `next_event_date` is `"Inf"`, which
equals no number); route it by `next_node` with draw `rnd`; then
`release` it to the destination when
`len(destination.individuals) < destination.node_capacity`, and
`block_individual` otherwise. -/
def finish_service (S : ℕ → ℕ → ℚ) (rnd : ℚ) (fuel : ℕ)
    (s : SimState) (nIdx : ℕ) : Option SimState :=
  match s.nodes.get? nIdx with
  | none => none
  | some n =>
    match n.next_event_date with
    | none => none
    | some ned =>
      match (n.individuals.take n.c).findIdx?
          (fun ind => decide (ind.service_end_date = ned)) with
      | none => none
      | some i =>
        match n.individuals.get? i with
        | none => none
        | some ind =>
          match next_nodeD s n rnd ind.customer_class with
          | none => none
          | some dest =>
            if destHasSpace s dest then release S fuel s nIdx i dest ned
            else
              match dest with
              | Dest.node j => block_individual s nIdx i j
              | Dest.exit => none

/-- Per-entry resolvability of a list of blocked-queue entries in a state:
each names an origin node reachable through `getNodePy` holding an
individual with the recorded id. -/
def blqOK (s : SimState) (q : List (ℕ × ℕ)) : Prop :=
  ∀ e ∈ q, ∃ k m, getNodePy s e.1 = some (k, m) ∧
    (m.individuals.find? (fun j => decide (j.id_number = e.2))).isSome

/-- A free server exists in `n` when needed for an immediate service
start. -/
def freeServerAvailable (n : Node) : Prop :=
  n.individuals.length < n.c → ∃ sv ∈ n.servers, sv.busy = false

/-- Overwrites the `node_capacity` attribute of the node at index `j`. -/
def setCap (s : SimState) (j : ℕ) (cap : Option ℕ) : SimState :=
  updNode s j (fun n => { n with node_capacity := cap })

/-- Concrete one-node state used to witness C5: a single node with one
free server, no blocked queue, and no present individuals. -/
def c5state : SimState :=
  ⟨[Node.init 1 1 none [[(1 : ℚ)]]], [], [(0, 0)], ⟨[]⟩⟩

/-- Concrete individual used to witness C5. -/
def c5ind : Individual := ⟨7, 0, 0, 0, 0, 0, 0, false, none, []⟩

/-- Concrete individual for the C9 counterexample: in service at node 1,
attached to server (1, 1). -/
def c9ind : Individual := ⟨5, 0, 0, 0, 0, 0, 0, false, some (1, 1), []⟩

/-- Concrete node for the C9 counterexample: one busy server whose
occupant is the individual above. -/
def c9node : Node :=
  { id_number := 1
    c := 1
    node_capacity := some 1
    transition_row := [[(1 : ℚ)]]
    cum_transition_row := [[(1 : ℚ)]]
    individuals := [c9ind]
    servers := [⟨1, 1, true, some 5⟩]
    next_event_date := none
    blocked_queue := [] }

/-- Concrete state for the C9 counterexample. -/
def c9state : SimState := ⟨[c9node], [], [(1, 0)], ⟨[]⟩⟩

/-- Concrete blocked individual for C10: waiting in node 1's blocked
queue, attached to server (1, 2). -/
def c10indblocked : Individual := ⟨5, 0, 0, 0, 0, 0, 0, true, some (1, 2), []⟩

/-- Concrete incoming individual for C10. -/
def c10indnew : Individual := ⟨9, 0, 0, 0, 0, 0, 0, false, none, []⟩

/-- Concrete node for C10: one free server, one busy server, and a
non-empty blocked queue naming the blocked individual. -/
def c10node : Node :=
  { id_number := 1
    c := 2
    node_capacity := none
    transition_row := [[(1 : ℚ)]]
    cum_transition_row := [[(1 : ℚ)]]
    individuals := [c10indblocked]
    servers := [⟨1, 1, false, none⟩, ⟨1, 2, true, some 5⟩]
    next_event_date := none
    blocked_queue := [(1, 5)] }

/-- Concrete state for the C10 counterexample, with an empty blocking
graph. -/
def c10state : SimState := ⟨[c10node], [], [(0, 1)], ⟨[]⟩⟩

/-- Concrete state for the C10 witness, with one pre-existing edge not
incident to server (1, 1). -/
def c10wstate : SimState :=
  ⟨[c10node], [], [(0, 1)], ⟨[(some (2, 2), some (3, 3))]⟩⟩

/-- Stated from the claim's words (C6), for comparison with
`begin_service_if_possible_release`: the same scan of the first `c`
service positions, but attaching with a freshly sampled service duration
`S node class` and `service_end_date = t + fresh duration`. -/
def bsSpecC6Aux (S : ℕ → ℕ → ℚ) (t : ℚ) (nIdx : ℕ) :
    List ℕ → SimState → Option SimState
  | [], s => some s
  | i :: rest, s =>
    match s.nodes.get? nIdx with
    | none => none
    | some n =>
      match n.individuals.get? i with
      | none => bsSpecC6Aux S t nIdx rest s
      | some ind =>
        if ind.server.isSome then bsSpecC6Aux S t nIdx rest s
        else
          match find_free_server n with
          | none => none
          | some sv =>
            match attach_server s nIdx sv ind with
            | none => none
            | some (ind1, s1) =>
              let dur := S n.id_number ind1.customer_class
              let ind2 := { ind1 with
                service_time := dur
                service_start_date := t
                service_end_date := t + dur }
              bsSpecC6Aux S t nIdx rest (updNode s1 nIdx (setIndAt i ind2))

/-- Stated from the claim's words (C6): `begin_service` with a fresh
sample drawn at this call site. -/
def begin_service_releaseC6spec (S : ℕ → ℕ → ℚ) (s : SimState)
    (nIdx : ℕ) (t : ℚ) : Option SimState :=
  match s.nodes.get? nIdx with
  | none => none
  | some n =>
    if n.individuals.length ≥ n.c then bsSpecC6Aux S t nIdx (List.range n.c) s
    else some s

/-- Concrete individual for C6: waiting without a server, with stored
`service_time = 5` sampled at acceptance. -/
def c6ind : Individual := ⟨3, 0, 0, 5, 0, 0, 0, false, none, []⟩

/-- Concrete node for C6: one free server, one waiting individual. -/
def c6node : Node :=
  { id_number := 1
    c := 1
    node_capacity := none
    transition_row := [[(1 : ℚ)]]
    cum_transition_row := [[(1 : ℚ)]]
    individuals := [c6ind]
    servers := [⟨1, 1, false, none⟩]
    next_event_date := none
    blocked_queue := [] }

/-- Concrete state for C6. -/
def c6state : SimState := ⟨[c6node], [], [(1, 0)], ⟨[]⟩⟩

/-- Sampler for C6 whose fresh draw (7) differs from the stored service
time (5). -/
def c6S : ℕ → ℕ → ℚ := fun _ _ => 7

/-- Concrete result state of the C6 release-site service start: the
waiting individual got the free server with start `10` and end
`10 + 5`. -/
def c6result : SimState :=
  ⟨[{ c6node with
      individuals := [⟨3, 0, 0, 5, 10, 15, 0, false, some (1, 1), []⟩]
      servers := [⟨1, 1, true, some 3⟩] }], [], [(1, 0)], ⟨[]⟩⟩

/-- Concrete in-service individual for the C1 witness, with service end
date 3. -/
def c1ind : Individual := ⟨1, 0, 0, 2, 1, 3, 0, false, some (1, 1), []⟩

/-- Concrete node for the C1 witness, with `next_event_date = 3`. -/
def c1node : Node :=
  { id_number := 1
    c := 1
    node_capacity := none
    transition_row := [[(1 : ℚ)]]
    cum_transition_row := [[(1 : ℚ)]]
    individuals := [c1ind]
    servers := [⟨1, 1, true, some 1⟩]
    next_event_date := some 3
    blocked_queue := [] }

/-- Concrete state for the C1 witness. -/
def c1state : SimState := ⟨[c1node], [], [(1, 0)], ⟨[]⟩⟩

/-- Constant sampler for the C1 witness. -/
def c1S : ℕ → ℕ → ℚ := fun _ _ => 2

/-- Concrete blocked individual for the C4 witness, sitting at origin
node 1. -/
def c4ind : Individual := ⟨5, 0, 0, 1, 0, 2, 0, true, some (1, 1), []⟩

/-- Concrete origin node for the C4 witness. -/
def c4n1 : Node :=
  { id_number := 1
    c := 1
    node_capacity := some 1
    transition_row := [[(1 : ℚ)]]
    cum_transition_row := [[(1 : ℚ)]]
    individuals := [c4ind]
    servers := [⟨1, 1, true, some 5⟩]
    next_event_date := none
    blocked_queue := [] }

/-- Concrete destination node for the C4 witness, with the blocked entry
at the head of its queue. -/
def c4n2 : Node :=
  { id_number := 2
    c := 1
    node_capacity := some 1
    transition_row := [[(1 : ℚ)]]
    cum_transition_row := [[(1 : ℚ)]]
    individuals := []
    servers := [⟨2, 1, false, none⟩]
    next_event_date := none
    blocked_queue := [(1, 5)] }

/-- Concrete state for the C4 witness. -/
def c4state : SimState := ⟨[c4n1, c4n2], [], [(0, 1), (0, 0)], ⟨[]⟩⟩

/-- Constant sampler for the C4 witness. -/
def c4S : ℕ → ℕ → ℚ := fun _ _ => 1

/-- Concrete in-service individual for the C3 witness: holds server
`(1, 1)`. -/
def c3ind : Individual := ⟨7, 0, 1, 2, 3, 4, 0, false, some (1, 1), []⟩

/-- Concrete node for the C3 witness. -/
def c3node : Node := ⟨1, 1, some 3, [[0]], [[0]], [c3ind],
  [⟨1, 1, true, some 7⟩], none, []⟩

/-- Concrete state for the C3 witness. -/
def c3state : SimState := ⟨[c3node], [], [(1, 0)], ⟨[]⟩⟩

/-- Constant sampler for the C3 witness. -/
def c3S : ℕ → ℕ → ℚ := fun _ _ => 1

/-- Number of individuals of a node holding an attached server. -/
def serverCount (n : Node) : ℕ :=
  (n.individuals.filter (fun ind => ind.server.isSome)).length

/-- Bound check of one node for C8: the present list fits the admission
capacity (`"Inf"` = no bound), and every individual beyond the first `c`
service positions has no attached server. -/
def nodeBounds (n : Node) : Bool :=
  (match n.node_capacity with
   | none => true
   | some cap => decide (n.individuals.length ≤ cap)) &&
  (n.individuals.drop n.c).all (fun ind => ind.server.isNone)

/-- C8 invariant of a state: every node satisfies `nodeBounds`. -/
def simInv (s : SimState) : Prop := ∀ n ∈ s.nodes, nodeBounds n = true

/-- Positions at or beyond `c` in a node's present list hold no server. -/
def tailFree (n : Node) : Prop :=
  ∀ i ind, n.c ≤ i → n.individuals.get? i = some ind → ind.server = none

/-- The admission-capacity half of `nodeBounds` as a proposition. -/
def capFits (n : Node) : Prop :=
  ∀ cap, n.node_capacity = some cap → n.individuals.length ≤ cap

/-- Frame between two states: same number of nodes, each node keeping its
`c` and `node_capacity` attributes. -/
def nodesFrame (s s' : SimState) : Prop :=
  s'.nodes.length = s.nodes.length ∧
  ∀ k m, s.nodes.get? k = some m → ∃ m', s'.nodes.get? k = some m' ∧
    m'.c = m.c ∧ m'.node_capacity = m.node_capacity

/-- Occupancy of the node at index `k` (0 when there is no such node). -/
def nodeLen (s : SimState) (k : ℕ) : ℕ :=
  ((s.nodes.get? k).map (fun n => n.individuals.length)).getD 0

/-- The state left by releasing the only individual of `c3state` to the
exit node at time 5. -/
def c8out : SimState :=
  ⟨[⟨1, 1, some 3, [[0]], [[0]], [], [⟨1, 1, false, none⟩], none, []⟩],
    [⟨7, 0, 0, 0, 0, 0, 0, false, none, [⟨1, 2, 3, 5, 1⟩]⟩],
    [(0, 0)], ⟨[]⟩⟩

/-- Concrete unblocked in-service individual for the C2 witness
(service ends at 4). -/
def c2indA : Individual := ⟨1, 0, 0, 0, 0, 4, 0, false, some (1, 1), []⟩

/-- Concrete blocked individual for the C2 witness (service ended at 3,
excluded from the minimum by its blocked flag). -/
def c2indB : Individual := ⟨2, 0, 0, 0, 0, 3, 0, true, some (1, 2), []⟩

/-- Concrete node for the C2 witness. -/
def c2node : Node := ⟨1, 2, none, [[0]], [[0]], [c2indA, c2indB],
  [⟨1, 1, true, some 1⟩, ⟨1, 2, true, some 2⟩], none, []⟩

/-! Infrastructure lemmas about list search and minima. -/

/-- Characterisation of a successful `List.findIdx?`: the element at the
found index satisfies the predicate and every earlier element fails it. -/
theorem findIdx_some_char {α : Type} (p : α → Bool) :
    ∀ (l : List α) (i : ℕ), l.findIdx? p = some i →
      ∃ a, l.get? i = some a ∧ p a = true ∧
        ∀ j, j < i → ∀ b, l.get? j = some b → p b = false := by
  intro l
  induction l with
  | nil => intro i h; simp [List.findIdx?] at h
  | cons x xs ih =>
    intro i h
    rw [List.findIdx?_cons] at h
    by_cases hx : p x = true
    · simp [hx] at h
      subst h
      exact ⟨x, rfl, hx, fun j hj => by omega⟩
    · simp [hx, List.findIdx?_succ] at h
      obtain ⟨i', hi', rfl⟩ := h
      obtain ⟨a, ha, hpa, hfirst⟩ := ih i' hi'
      refine ⟨a, by simpa using ha, hpa, ?_⟩
      intro j hj b hb
      match j with
      | 0 =>
        simp at hb
        subst hb
        simpa using hx
      | j' + 1 =>
        exact hfirst j' (by omega) b (by simpa using hb)

/-- Elementwise description of the accumulator loop of
`find_cum_transition_row`: entry `k` is the accumulator plus the sum of
the first `k+1` probabilities. -/
theorem cumFrom_get? :
    ∀ (l : List ℚ) (a : ℚ) (k : ℕ),
      (find_cum_transition_row.cumFrom a l).get? k =
        if k < l.length then some (a + (l.take (k + 1)).sum) else none := by
  intro l
  induction l with
  | nil => intro a k; simp [find_cum_transition_row.cumFrom]
  | cons p rest ih =>
    intro a k
    match k with
    | 0 => simp [find_cum_transition_row.cumFrom]
    | k' + 1 =>
      simp only [find_cum_transition_row.cumFrom, List.get?_cons_succ, ih,
        List.length_cons, List.take_succ_cons, List.sum_cons]
      by_cases hk : k' < rest.length
      · simp [hk]; ring
      · simp [hk]

/-! Claim theorems: routing (C7) and next-event computation (C2). -/

/-- Unfolding of `next_nodeD` once the class's cumulative row is known. -/
theorem next_nodeD_eq (s : SimState) (n : Node) (rnd : ℚ) (cls : ℕ)
    (row : List ℚ) (hrow : n.cum_transition_row.get? cls = some row) :
    next_nodeD s n rnd cls =
      match row.findIdx? (fun q => decide (rnd < q)) with
      | some p => (s.nodes.get? p).map (fun _ => Dest.node p)
      | none => some Dest.exit := by
  unfold next_nodeD
  rw [hrow]

/-- C7: `next_node` draws one uniform random value, walks the class's
cumulative-probability row in node order and returns the first transitive
node whose cumulative probability exceeds the draw, the distinguished
exit node when no entry exceeds it; and the cumulative row is precomputed
at node construction as the prefix sums of the class's raw transition
probabilities in the fixed order of transitive nodes. -/
theorem claim_C7 :
    (∀ (id c : ℕ) (cap : Option ℕ) (trow : List (List ℚ)) (cls : ℕ) (row : List ℚ),
      trow.get? cls = some row →
      (Node.init id c cap trow).cum_transition_row.get? cls =
        some ((List.range row.length).map (fun k => (row.take (k + 1)).sum)))
    ∧ (∀ (s : SimState) (n : Node) (rnd : ℚ) (cls : ℕ) (row : List ℚ),
      n.cum_transition_row.get? cls = some row →
      (∀ p, next_nodeD s n rnd cls = some (Dest.node p) →
        p < s.nodes.length ∧
        (∃ q, row.get? p = some q ∧ rnd < q) ∧
        (∀ j, j < p → ∀ q, row.get? j = some q → q ≤ rnd))
      ∧ (next_nodeD s n rnd cls = some Dest.exit ↔ ∀ q ∈ row, q ≤ rnd)) := by
  constructor
  · intro id c cap trow cls row hrow
    have hcum : find_cum_transition_row.cumFrom 0 row =
        (List.range row.length).map (fun k => (row.take (k + 1)).sum) := by
      apply List.ext_get?
      intro k
      rw [cumFrom_get?]
      by_cases hk : k < row.length
      · simp [hk, List.get?_map, List.get?_range]
      · rw [if_neg hk, eq_comm, List.get?_eq_none]
        simpa using le_of_not_lt hk
    simp only [Node.init, find_cum_transition_row, List.get?_map]
    rw [hrow]
    simpa using hcum
  · intro s n rnd cls row hrow
    have heq := next_nodeD_eq s n rnd cls row hrow
    constructor
    · intro p hp
      rw [heq] at hp
      split at hp
      · rename_i p' hfind
        cases hget : s.nodes.get? p' with
        | none => rw [hget] at hp; simp at hp
        | some nd =>
          rw [hget] at hp
          simp at hp
          subst hp
          obtain ⟨q, hq, hpq, hfirst⟩ := findIdx_some_char _ row p' hfind
          refine ⟨?_, ⟨q, hq, by simpa using hpq⟩, ?_⟩
          · by_contra hlen
            rw [List.get?_eq_none.mpr (le_of_not_lt hlen)] at hget
            exact Option.noConfusion hget
          · intro j hj q' hq'
            have := hfirst j hj q' hq'
            simpa using this
      · rename_i hfind
        exact absurd hp (by simp)
    · rw [heq]
      split
      · rename_i p' hfind
        constructor
        · intro h
          cases hget : s.nodes.get? p' with
          | none => rw [hget] at h; simp at h
          | some nd => rw [hget] at h; simp at h
        · intro hall
          obtain ⟨q, hq, hpq, _⟩ := findIdx_some_char _ row p' hfind
          have hmem : q ∈ row := List.get?_mem hq
          have hle := hall q hmem
          simp at hpq
          exact absurd hpq (not_lt.mpr hle)
      · rename_i hfind
        constructor
        · intro _ q hq
          have := List.findIdx?_eq_none_iff.mp hfind q hq
          simpa using this
        · intro _; rfl

/-- C2: `update_next_event_date` sets `next_event_date` to the minimum
`service_end_date` over the first `c` individuals that are not blocked
and whose `service_end_date` is strictly greater than `current_time`,
and to the no-event sentinel (`"Inf"`, modelled `none`) when no
individual qualifies. -/
theorem claim_C2 (n : Node) (t : ℚ) :
    ((update_next_event_date n t).next_event_date = none ↔ qualifying n t = [])
    ∧ (∀ m, (update_next_event_date n t).next_event_date = some m ↔
        ((∃ ind ∈ qualifying n t, ind.service_end_date = m) ∧
          ∀ ind ∈ qualifying n t, m ≤ ind.service_end_date)) := by
  constructor
  · simp [update_next_event_date, List.min?_eq_none_iff]
  · intro m
    unfold update_next_event_date
    simp only []
    rw [@List.min?_eq_some_iff ℚ m _ _ ⟨fun h1 h2 => le_antisymm h1 h2⟩
      (le_refl) (fun a b => min_choice a b) (fun a b c => le_min_iff) _]
    simp only [List.mem_map]
    constructor
    · rintro ⟨⟨ind, hind, hm⟩, hle⟩
      exact ⟨⟨ind, hind, hm⟩, fun i hi => hle i.service_end_date ⟨i, hi, rfl⟩⟩
    · rintro ⟨⟨ind, hind, hm⟩, hle⟩
      refine ⟨⟨ind, hind, hm⟩, ?_⟩
      rintro x ⟨i, hi, rfl⟩
      exact hle i hi

/-! State-access and frame lemmas. -/

/-- Reading a node after `updNode`. -/
theorem updNode_get? (s : SimState) (k : ℕ) (f : Node → Node) (j : ℕ) :
    (updNode s k f).nodes.get? j =
      if k = j then (s.nodes.get? j).map f else s.nodes.get? j := by
  simp only [updNode, List.get?_eq_getElem?, List.getElem?_modify]
  split
  · rename_i h
    cases s.nodes[j]? <;> simp [h]
  · rename_i h
    cases s.nodes[j]? <;> simp [h]

/-- `updNode` keeps the number of nodes. -/
theorem updNode_length (s : SimState) (k : ℕ) (f : Node → Node) :
    (updNode s k f).nodes.length = s.nodes.length := by
  simp [updNode, List.length_modify]

/-- `addBlockEdges` only changes the digraph. -/
theorem addBlockEdges_frame (selfId : ℕ) (v : Vertex) :
    ∀ (q : List (ℕ × ℕ)) (s s' : SimState),
      addBlockEdges selfId v q s = some s' →
      s'.nodes = s.nodes ∧ s'.exit_individuals = s.exit_individuals ∧
        s'.state = s.state := by
  intro q
  induction q with
  | nil =>
    intro s s' h
    simp [addBlockEdges] at h
    subst h
    exact ⟨rfl, rfl, rfl⟩
  | cons e rest ih =>
    intro s s' h
    obtain ⟨oid, iid⟩ := e
    unfold addBlockEdges at h
    split at h
    · exact Option.noConfusion h
    · rename_i pr hpr
      obtain ⟨oIdx, onode⟩ := pr
      split at h
      · exact Option.noConfusion h
      · rename_i ind2 hind2
        have := ih _ _ h
        split at this <;> exact this

/-- Resolvable entries make `addBlockEdges` succeed. -/
theorem addBlockEdges_isSome (selfId : ℕ) (v : Vertex) :
    ∀ (q : List (ℕ × ℕ)) (s : SimState), blqOK s q →
      (addBlockEdges selfId v q s).isSome := by
  intro q
  induction q with
  | nil => intro s _; simp [addBlockEdges]
  | cons e rest ih =>
    intro s hok
    obtain ⟨oid, iid⟩ := e
    obtain ⟨k, m, hget, hfind⟩ := hok (oid, iid) (List.mem_cons_self _ _)
    obtain ⟨ind2, hind2⟩ := Option.isSome_iff_exists.mp hfind
    simp only at hget hind2
    unfold addBlockEdges
    rw [hget]
    dsimp only
    rw [hind2]
    dsimp only
    apply ih
    intro e' he'
    have hrest := hok e' (List.mem_cons_of_mem _ he')
    split
    · exact hrest
    · exact hrest

/-- Effect of `attach_server` when it succeeds: the individual points at
the server, and among the state only the attaching node's `servers` list
and the digraph change. -/
theorem attach_server_spec (s : SimState) (nIdx : ℕ) (sv : Server)
    (ind ind' : Individual) (s' : SimState)
    (h : attach_server s nIdx sv ind = some (ind', s')) :
    ind' = { ind with server := some sv.ref } ∧
    s'.exit_individuals = s.exit_individuals ∧ s'.state = s.state ∧
    s'.nodes = (updNode s nIdx (fun m =>
      { m with servers := m.servers.map (fun w =>
          if w.ref = sv.ref then { w with busy := true, cust := some ind.id_number } else w) })).nodes := by
  unfold attach_server at h
  split at h
  · exact Option.noConfusion h
  · rename_i n hn
    rw [Option.map_eq_some'] at h
    obtain ⟨s2, habe, heq⟩ := h
    obtain ⟨hnodes, hexit, hstate⟩ := addBlockEdges_frame _ _ _ _ _ habe
    have hind : ind' = { ind with server := some sv.ref } := by
      have := congrArg Prod.fst heq
      exact this.symm
    have hs : s' = s2 := by
      have := congrArg Prod.snd heq
      exact this.symm
    subst hs
    exact ⟨hind, hexit, hstate, hnodes⟩

/-- `attach_server` succeeds whenever the node exists and every entry of
its blocked queue is resolvable. -/
theorem attach_server_isSome (s : SimState) (nIdx : ℕ) (sv : Server)
    (ind : Individual) (n : Node) (hn : s.nodes.get? nIdx = some n)
    (hok : blqOK s n.blocked_queue) :
    (attach_server s nIdx sv ind).isSome := by
  unfold attach_server
  rw [hn]
  dsimp only
  rw [Option.isSome_map']
  apply addBlockEdges_isSome
  intro e he
  obtain ⟨k, m, hget, hfind⟩ := hok e he
  obtain ⟨oid, iid⟩ := e
  match oid, hget with
  | 0, hget => exact absurd hget (by simp [getNodePy])
  | j + 1, hget =>
    simp only [getNodePy] at hget ⊢
    rw [updNode_get?]
    split
    · rename_i hj
      subst hj
      rw [hn] at hget
      simp only [Option.map_some', Option.some.injEq, Prod.mk.injEq] at hget
      obtain ⟨rfl, rfl⟩ := hget
      refine ⟨nIdx, { n with servers := n.servers.map (fun w =>
        if w.ref = sv.ref then { w with busy := true, cust := some ind.id_number } else w) },
        ?_, by simpa using hfind⟩
      rw [hn]
      rfl
    · exact ⟨k, m, by simpa using hget, hfind⟩

/-- Effect of `begin_service_if_possible_accept` when it succeeds: arrival
date stamped, service time sampled, and a server attached with service
dates set exactly when fewer than `c` individuals are present. -/
theorem bsa_spec (S : ℕ → ℕ → ℚ) (s : SimState) (nIdx : ℕ)
    (ind ind' : Individual) (t : ℚ) (s' : SimState) (n : Node)
    (hn : s.nodes.get? nIdx = some n)
    (h : begin_service_if_possible_accept S s nIdx ind t = some (ind', s')) :
    (s'.exit_individuals = s.exit_individuals ∧ s'.state = s.state) ∧
    (∀ k m, s.nodes.get? k = some m →
      ∃ sr, s'.nodes.get? k = some { m with servers := sr }) ∧
    (ind'.id_number = ind.id_number ∧ ind'.customer_class = ind.customer_class ∧
      ind'.is_blocked = ind.is_blocked ∧ ind'.exit_date = ind.exit_date ∧
      ind'.data_records = ind.data_records ∧
      ind'.arrival_date = t ∧ ind'.service_time = S n.id_number ind.customer_class) ∧
    (n.individuals.length < n.c →
      (∃ r, ind'.server = some r) ∧ ind'.service_start_date = t ∧
        ind'.service_end_date = t + ind'.service_time) ∧
    (¬ n.individuals.length < n.c →
      ind'.server = ind.server ∧ ind'.service_start_date = ind.service_start_date ∧
        ind'.service_end_date = ind.service_end_date ∧ s' = s) := by
  unfold begin_service_if_possible_accept at h
  rw [hn] at h
  dsimp only at h
  split at h
  · rename_i hlt
    split at h
    · exact Option.noConfusion h
    · rename_i sv hsv
      rw [Option.map_eq_some'] at h
      obtain ⟨p, hat, heq⟩ := h
      obtain ⟨ind1, s1⟩ := p
      obtain ⟨hind1, hexit, hstate, hnodes⟩ := attach_server_spec _ _ _ _ _ _ hat
      have hind' : ind' = { ind1 with
          service_start_date := t
          service_end_date := t + ind1.service_time } := (congrArg Prod.fst heq).symm
      have hs' : s' = s1 := (congrArg Prod.snd heq).symm
      subst hs' hind' hind1
      refine ⟨⟨hexit, hstate⟩, ?_, ?_, ?_, ?_⟩
      · intro k m hm
        rw [hnodes, updNode_get?]
        split
        · rename_i hk
          subst hk
          rw [hm]
          exact ⟨_, rfl⟩
        · rw [hm]
          exact ⟨m.servers, rfl⟩
      · exact ⟨rfl, rfl, rfl, rfl, rfl, rfl, rfl⟩
      · intro _
        exact ⟨⟨sv.ref, rfl⟩, rfl, rfl⟩
      · intro hge
        exact absurd hlt hge
  · rename_i hge
    simp only [Option.some.injEq, Prod.mk.injEq] at h
    obtain ⟨hind', hs'⟩ := h
    subst hs'
    subst hind'
    refine ⟨⟨rfl, rfl⟩, ?_, ?_, ?_, ?_⟩
    · intro k m hm
      exact ⟨m.servers, hm⟩
    · exact ⟨rfl, rfl, rfl, rfl, rfl, rfl, rfl⟩
    · intro hlt
      exact absurd hlt hge
    · intro _
      exact ⟨rfl, rfl, rfl, rfl⟩

/-- `find_free_server` succeeds exactly when some server is free. -/
theorem find_free_server_isSome (n : Node)
    (h : ∃ sv ∈ n.servers, sv.busy = false) :
    (find_free_server n).isSome := by
  obtain ⟨sv, hmem, hfree⟩ := h
  unfold find_free_server
  rw [List.head?_isSome]
  intro hnil
  have : sv ∈ n.servers.filter (fun sv => !sv.busy) :=
    List.mem_filter.mpr ⟨hmem, by simp [hfree]⟩
  rw [hnil] at this
  exact List.not_mem_nil sv this

/-- `begin_service_if_possible_accept` succeeds whenever the node exists,
a free server is available if one is needed, and the blocked queue is
resolvable. -/
theorem bsa_isSome (S : ℕ → ℕ → ℚ) (s : SimState) (nIdx : ℕ)
    (ind : Individual) (t : ℚ) (n : Node)
    (hn : s.nodes.get? nIdx = some n) (hfree : freeServerAvailable n)
    (hok : blqOK s n.blocked_queue) :
    (begin_service_if_possible_accept S s nIdx ind t).isSome := by
  unfold begin_service_if_possible_accept
  rw [hn]
  dsimp only
  split
  · rename_i hlt
    obtain ⟨sv, hsv⟩ := Option.isSome_iff_exists.mp (find_free_server_isSome n (hfree hlt))
    rw [hsv]
    rw [Option.isSome_map']
    exact attach_server_isSome _ _ _ _ _ hn hok
  · simp

/-- Effect of `accept` when it succeeds: the cleared individual is
appended to the tail of the present list (after an immediate service
start exactly when fewer than `c` individuals were present), the
in-service counter of the node is incremented, and nothing else
changes. -/
theorem accept_spec (S : ℕ → ℕ → ℚ) (s : SimState) (nIdx : ℕ)
    (ind : Individual) (t : ℚ) (s' : SimState) (n : Node)
    (hn : s.nodes.get? nIdx = some n)
    (h : accept S s nIdx ind t = some s') :
    ∃ ind',
      (ind'.id_number = ind.id_number ∧ ind'.customer_class = ind.customer_class ∧
        ind'.exit_date = 0 ∧ ind'.is_blocked = false ∧
        ind'.arrival_date = t ∧ ind'.service_time = S n.id_number ind.customer_class ∧
        ind'.data_records = ind.data_records) ∧
      (n.individuals.length < n.c →
        (∃ r, ind'.server = some r) ∧ ind'.service_start_date = t ∧
          ind'.service_end_date = t + ind'.service_time) ∧
      (¬ n.individuals.length < n.c →
        ind'.server = ind.server ∧
          ind'.service_start_date = ind.service_start_date ∧
          ind'.service_end_date = ind.service_end_date) ∧
      (∀ k m, s.nodes.get? k = some m → ∃ m',
        s'.nodes.get? k = some m' ∧
        m'.c = m.c ∧ m'.node_capacity = m.node_capacity ∧
        m'.id_number = m.id_number ∧ m'.blocked_queue = m.blocked_queue ∧
        m'.next_event_date = m.next_event_date ∧
        (k ≠ nIdx → m'.individuals = m.individuals) ∧
        (k = nIdx → m'.individuals = m.individuals ++ [ind'])) ∧
      s'.exit_individuals = s.exit_individuals ∧
      s'.state = s.state.modify (fun p => (p.1 + 1, p.2)) (n.id_number - 1) := by
  unfold accept at h
  rw [Option.map_eq_some'] at h
  obtain ⟨p, hbsa, heq⟩ := h
  obtain ⟨ind', s1⟩ := p
  obtain ⟨⟨hexit, hstate⟩, hnodes, hflds, hserved, hunserved⟩ :=
    bsa_spec S s nIdx _ ind' t s1 n hn hbsa
  refine ⟨ind', ?_, ?_, ?_, ?_, ?_, ?_⟩
  · obtain ⟨f1, f2, f3, f4, f5, f6, f7⟩ := hflds
    exact ⟨f1, f2, f4, f3, f6, f7, f5⟩
  · exact hserved
  · intro hge
    obtain ⟨g1, g2, g3, _⟩ := hunserved hge
    exact ⟨g1, g2, g3⟩
  · intro k m hm
    obtain ⟨sr, hsr⟩ := hnodes k m hm
    have hidnum : ((s.nodes.get? nIdx).map Node.id_number).getD 0 = n.id_number := by
      rw [hn]; rfl
    rw [← heq]
    simp only [change_state_accept]
    rw [updNode_get?, hsr]
    split
    · rename_i hk
      subst hk
      exact ⟨_, rfl, rfl, rfl, rfl, rfl, rfl, fun hne => absurd rfl hne,
        fun _ => rfl⟩
    · rename_i hne
      exact ⟨_, rfl, rfl, rfl, rfl, rfl, rfl, fun _ => rfl,
        fun hk => absurd hk.symm hne⟩
  · rw [← heq]
    simpa [change_state_accept] using hexit
  · rw [← heq]
    have hidnum : ((s.nodes.get? nIdx).map Node.id_number).getD 0 = n.id_number := by
      rw [hn]; rfl
    simp only [change_state_accept, updNode, hidnum]
    rw [hstate]

/-- `accept` succeeds whenever the node exists, a free server is
available if one is needed, and the blocked queue is resolvable; no
relation between occupancy and `node_capacity` is required. -/
theorem accept_isSome (S : ℕ → ℕ → ℚ) (s : SimState) (nIdx : ℕ)
    (ind : Individual) (t : ℚ) (n : Node)
    (hn : s.nodes.get? nIdx = some n) (hfree : freeServerAvailable n)
    (hok : blqOK s n.blocked_queue) :
    (accept S s nIdx ind t).isSome := by
  unfold accept
  rw [Option.isSome_map']
  exact bsa_isSome S s nIdx _ t n hn hfree hok

/-- `getNodePy` after `setCap` returns the same node up to its
`node_capacity` attribute. -/
theorem getNodePy_setCap (s : SimState) (j : ℕ) (cap : Option ℕ) (i : ℕ) :
    getNodePy (setCap s j cap) i =
      (getNodePy s i).map (fun pr =>
        if pr.1 = j then (pr.1, { pr.2 with node_capacity := cap }) else pr) := by
  match i with
  | 0 => rfl
  | k + 1 =>
    simp only [getNodePy, setCap, updNode_get?]
    split
    · rename_i hk
      cases hm : s.nodes.get? k with
      | none => simp
      | some m => simp [← hk]
    · rename_i hk
      cases hm : s.nodes.get? k with
      | none => rfl
      | some m =>
        simp only [Option.map_some']
        rw [if_neg (fun hh => hk hh.symm)]

/-- `addBlockEdges` commutes with `setCap`: the edge-adding loop never
reads any capacity attribute. -/
theorem addBlockEdges_setCap (selfId : ℕ) (v : Vertex) (j : ℕ) (cap : Option ℕ) :
    ∀ (q : List (ℕ × ℕ)) (s : SimState),
      addBlockEdges selfId v q (setCap s j cap) =
        (addBlockEdges selfId v q s).map (fun s2 => setCap s2 j cap) := by
  intro q
  induction q with
  | nil => intro s; simp [addBlockEdges]
  | cons e rest ih =>
    intro s
    obtain ⟨oid, iid⟩ := e
    unfold addBlockEdges
    rw [getNodePy_setCap]
    cases hget : getNodePy s oid with
    | none => rfl
    | some pr =>
      obtain ⟨k, m⟩ := pr
      simp only [Option.map_some']
      have hindiv : (if (k, m).1 = j
          then ((k, m).1, { (k, m).2 with node_capacity := cap })
          else (k, m)).2.individuals = m.individuals := by
        split <;> rfl
      rw [hindiv]
      cases hfind : m.individuals.find? (fun x => decide (x.id_number = iid)) with
      | none => rfl
      | some ind2 =>
        dsimp only
        have hcomm : (if ind2.id_number ≠ selfId then
              { setCap s j cap with
                digraph := (setCap s j cap).digraph.addEdge ind2.server v }
            else setCap s j cap) =
            setCap (if ind2.id_number ≠ selfId then
              { s with digraph := s.digraph.addEdge ind2.server v } else s) j cap := by
          split <;> rfl
        rw [hcomm, ih]

/-- Two pointwise-commuting `List.modify` operations commute. -/
theorem modify_comm {α : Type} (f g : α → α) (k j : ℕ) (l : List α)
    (h : ∀ a, f (g a) = g (f a)) :
    (l.modify g j).modify f k = (l.modify f k).modify g j := by
  apply List.ext_getElem?
  intro i
  simp only [List.getElem?_modify]
  cases l[i]? with
  | none => rfl
  | some a =>
    by_cases hk : k = i <;> by_cases hj : j = i <;> simp [hk, hj, h a]

/-- `updNode` at `k` commutes with `setCap` at `j` when the update leaves
`node_capacity` alone (pointwise commutation hypothesis). -/
theorem updNode_setCap_comm (s : SimState) (k j : ℕ) (cap : Option ℕ)
    (f : Node → Node)
    (h : ∀ n, f { n with node_capacity := cap } =
      { f n with node_capacity := cap }) :
    updNode (setCap s j cap) k f = setCap (updNode s k f) j cap := by
  simp only [updNode, setCap]
  congr 1
  apply modify_comm
  intro a
  exact h a

/-- `attach_server` commutes with `setCap`: it never reads any capacity
attribute. -/
theorem attach_server_setCap (s : SimState) (nIdx : ℕ) (sv : Server)
    (ind : Individual) (j : ℕ) (cap : Option ℕ) :
    attach_server (setCap s j cap) nIdx sv ind =
      (attach_server s nIdx sv ind).map (fun p => (p.1, setCap p.2 j cap)) := by
  unfold attach_server
  have hget : (setCap s j cap).nodes.get? nIdx =
      if j = nIdx then (s.nodes.get? nIdx).map
        (fun n => { n with node_capacity := cap }) else s.nodes.get? nIdx :=
    updNode_get? s j _ nIdx
  rw [hget]
  cases hn : s.nodes.get? nIdx with
  | none =>
    by_cases hj : j = nIdx
    · rw [if_pos hj]
      rfl
    · rw [if_neg hj]
      rfl
  | some n =>
    have hcomm : updNode (setCap s j cap) nIdx (fun m =>
        { m with servers := m.servers.map (fun w =>
            if w.ref = sv.ref then { w with busy := true, cust := some ind.id_number } else w) }) =
        setCap (updNode s nIdx (fun m =>
        { m with servers := m.servers.map (fun w =>
            if w.ref = sv.ref then { w with busy := true, cust := some ind.id_number } else w) })) j cap :=
      updNode_setCap_comm s nIdx j cap _ (fun m => rfl)
    by_cases hj : j = nIdx
    · rw [if_pos hj]
      simp only [Option.map_some']
      try dsimp only
      rw [hcomm, addBlockEdges_setCap]
      rw [Option.map_map, Option.map_map]
      rfl
    · rw [if_neg hj]
      dsimp only
      rw [hcomm, addBlockEdges_setCap]
      rw [Option.map_map, Option.map_map]
      rfl

/-- `begin_service_if_possible_accept` commutes with `setCap`. -/
theorem bsa_setCap (S : ℕ → ℕ → ℚ) (s : SimState) (nIdx : ℕ)
    (ind : Individual) (t : ℚ) (j : ℕ) (cap : Option ℕ) :
    begin_service_if_possible_accept S (setCap s j cap) nIdx ind t =
      (begin_service_if_possible_accept S s nIdx ind t).map
        (fun p => (p.1, setCap p.2 j cap)) := by
  unfold begin_service_if_possible_accept
  have hget : (setCap s j cap).nodes.get? nIdx =
      if j = nIdx then (s.nodes.get? nIdx).map
        (fun n => { n with node_capacity := cap }) else s.nodes.get? nIdx :=
    updNode_get? s j _ nIdx
  rw [hget]
  cases hn : s.nodes.get? nIdx with
  | none =>
    by_cases hj : j = nIdx
    · rw [if_pos hj]
      rfl
    · rw [if_neg hj]
      rfl
  | some n =>
    by_cases hj : j = nIdx
    · rw [if_pos hj]
      simp only [Option.map_some']
      try dsimp only
      have hffs_eq : find_free_server { n with node_capacity := cap } =
          find_free_server n := rfl
      rw [hffs_eq]
      by_cases hlt : n.individuals.length < n.c
      · simp only [if_pos hlt]
        cases hffs : find_free_server n with
        | none => rfl
        | some sv =>
          dsimp only
          rw [attach_server_setCap]
          rw [Option.map_map, Option.map_map]
          rfl
      · simp only [if_neg hlt]
        rfl
    · rw [if_neg hj]
      try dsimp only
      by_cases hlt : n.individuals.length < n.c
      · simp only [if_pos hlt]
        cases hffs : find_free_server n with
        | none => rfl
        | some sv =>
          dsimp only
          rw [attach_server_setCap]
          rw [Option.map_map, Option.map_map]
          rfl
      · simp only [if_neg hlt]
        rfl

/-- C5-supporting frame theorem body: `accept` commutes with `setCap`. -/
theorem accept_setCap (S : ℕ → ℕ → ℚ) (s : SimState) (nIdx : ℕ)
    (ind : Individual) (t : ℚ) (j : ℕ) (cap : Option ℕ) :
    accept S (setCap s j cap) nIdx ind t =
      (accept S s nIdx ind t).map (fun s2 => setCap s2 j cap) := by
  unfold accept
  dsimp only
  rw [bsa_setCap]
  rw [Option.map_map, Option.map_map]
  apply congrArg (fun f => Option.map f _)
  funext p
  obtain ⟨ind', s1⟩ := p
  dsimp only [Function.comp]
  have hupd : updNode (setCap s1 j cap) nIdx (fun n =>
      { n with individuals := n.individuals ++ [ind'] }) =
      setCap (updNode s1 nIdx (fun n =>
      { n with individuals := n.individuals ++ [ind'] })) j cap :=
    updNode_setCap_comm s1 nIdx j cap _ (fun m => rfl)
  rw [hupd]
  have hid : (((setCap s j cap).nodes.get? nIdx).map Node.id_number).getD 0 =
      ((s.nodes.get? nIdx).map Node.id_number).getD 0 := by
    have hget : (setCap s j cap).nodes.get? nIdx =
        if j = nIdx then (s.nodes.get? nIdx).map
          (fun n => { n with node_capacity := cap }) else s.nodes.get? nIdx :=
      updNode_get? s j _ nIdx
    rw [hget]
    split
    · cases s.nodes.get? nIdx <;> rfl
    · rfl
  rw [hid]
  rfl

/-- C5: `accept` always succeeds and performs no capacity check (the
caller is trusted to ensure `len(individuals) < capacity`): it clears the
individual's exit date and blocked flag, attempts an immediate service
start (succeeding exactly when fewer than `c` individuals are present),
appends the individual to the tail of the present list, and increments
the node's in-service occupancy counter.  Independence from capacity is
stated as commutation: overwriting the node's `node_capacity` with any
value commutes with `accept`. -/
theorem claim_C5 (S : ℕ → ℕ → ℚ) (s : SimState) (nIdx : ℕ)
    (ind : Individual) (t : ℚ) (n : Node)
    (hn : s.nodes.get? nIdx = some n)
    (hfree : freeServerAvailable n)
    (hok : blqOK s n.blocked_queue) :
    (∃ s', accept S s nIdx ind t = some s' ∧
      ∃ ind' m', s'.nodes.get? nIdx = some m' ∧
        m'.individuals = n.individuals ++ [ind'] ∧
        ind'.exit_date = 0 ∧ ind'.is_blocked = false ∧
        ind'.id_number = ind.id_number ∧
        (n.individuals.length < n.c →
          (∃ r, ind'.server = some r) ∧ ind'.service_start_date = t ∧
            ind'.service_end_date = t + ind'.service_time) ∧
        (¬ n.individuals.length < n.c → ind'.server = ind.server) ∧
        s'.state = s.state.modify (fun p => (p.1 + 1, p.2)) (n.id_number - 1)) ∧
    (∀ cap, accept S (setCap s nIdx cap) nIdx ind t =
      (accept S s nIdx ind t).map (fun s2 => setCap s2 nIdx cap)) := by
  constructor
  · obtain ⟨s', hs'⟩ := Option.isSome_iff_exists.mp
      (accept_isSome S s nIdx ind t n hn hfree hok)
    refine ⟨s', hs', ?_⟩
    obtain ⟨ind', hflds, hserved, hunserved, hnodes, _, hstate⟩ :=
      accept_spec S s nIdx ind t s' n hn hs'
    obtain ⟨m', hm', _, _, _, _, _, _, happ⟩ := hnodes nIdx n hn
    exact ⟨ind', m', hm', happ rfl, hflds.2.2.1, hflds.2.2.2.1, hflds.1,
      hserved, fun hge => (hunserved hge).1, hstate⟩
  · intro cap
    exact accept_setCap S s nIdx ind t nIdx cap

/-- Witness for C5 at a concrete state: every hypothesis is discharged and
the accept call succeeds. -/
theorem claim_C5_witness : (accept (fun _ _ => (2 : ℚ)) c5state 0 c5ind 1).isSome := by
  obtain ⟨s', hs', _⟩ :=
    (claim_C5 (fun _ _ => (2 : ℚ)) c5state 0 c5ind 1 (Node.init 1 1 none [[(1 : ℚ)]])
      rfl
      (fun _ => ⟨⟨1, 1, false, none⟩, by decide, rfl⟩)
      (fun e he => absurd he (List.not_mem_nil e))).1
  rw [hs']
  rfl

/-- Effect of `block_individual` as one state equation: the individual at
`indIdx` is marked blocked in place (its server untouched), one unit of
occupancy moves from in-service to blocked, `(self id, individual id)` is
appended to the destination's `blocked_queue`, and an edge is added from
the individual's server to every server of the destination. -/
theorem block_individual_eq (s : SimState) (nIdx indIdx destIdx : ℕ)
    (n d : Node) (ind : Individual)
    (hn : s.nodes.get? nIdx = some n)
    (hi : n.individuals.get? indIdx = some ind)
    (hd : s.nodes.get? destIdx = some d) :
    block_individual s nIdx indIdx destIdx = some
      { nodes := (s.nodes.modify (setIndAt indIdx { ind with is_blocked := true }) nIdx).modify
          (pushBlq n.id_number ind.id_number) destIdx
        exit_individuals := s.exit_individuals
        state := s.state.modify (fun p => (p.1 - 1, p.2 + 1)) (n.id_number - 1)
        digraph := d.servers.foldl (fun g svr =>
          g.addEdge ind.server (some svr.ref)) s.digraph } := by
  unfold block_individual
  rw [hn]
  dsimp only
  rw [hi]
  dsimp only
  have hd3 : ((updNode (change_state_block (updNode s nIdx
      (setIndAt indIdx { ind with is_blocked := true })) n.id_number) destIdx
      (pushBlq n.id_number ind.id_number)).nodes.get? destIdx).map
        Node.servers = some d.servers := by
    rw [updNode_get?, if_pos rfl]
    rw [show (change_state_block (updNode s nIdx
      (setIndAt indIdx { ind with is_blocked := true }))
      n.id_number).nodes = (updNode s nIdx
      (setIndAt indIdx { ind with is_blocked := true })).nodes from rfl]
    rw [updNode_get?]
    by_cases hk : nIdx = destIdx
    · rw [if_pos hk, hd]
      rfl
    · rw [if_neg hk, hd]
      rfl
  cases hval : (updNode (change_state_block (updNode s nIdx
      (setIndAt indIdx { ind with is_blocked := true })) n.id_number) destIdx
      (pushBlq n.id_number ind.id_number)).nodes.get? destIdx with
  | none => rw [hval] at hd3; exact Option.noConfusion hd3
  | some dn =>
    rw [hval] at hd3
    simp only [Option.map_some', Option.some.injEq] at hd3
    dsimp only
    rw [hd3]
    rfl

/-- C9 amended: `block_individual` marks the individual blocked while
leaving its attached server in place, so `is_blocked` and "has an
attached server" hold simultaneously for an individual blocked while in
service (the two are not mutually exclusive). -/
theorem claim_C9_amended (s : SimState) (nIdx indIdx destIdx : ℕ)
    (n d : Node) (ind : Individual)
    (hn : s.nodes.get? nIdx = some n)
    (hi : n.individuals.get? indIdx = some ind)
    (hd : s.nodes.get? destIdx = some d) :
    ∃ s' n' ind', block_individual s nIdx indIdx destIdx = some s' ∧
      s'.nodes.get? nIdx = some n' ∧
      n'.individuals.get? indIdx = some ind' ∧
      ind'.is_blocked = true ∧ ind'.server = ind.server := by
  have heq := block_individual_eq s nIdx indIdx destIdx n d ind hn hi hd
  have hlen : indIdx < n.individuals.length := by
    by_contra hge
    rw [List.get?_eq_none.mpr (le_of_not_lt hge)] at hi
    exact Option.noConfusion hi
  have hn' : s.nodes[nIdx]? = some n := by
    rw [← List.get?_eq_getElem?]
    exact hn
  refine ⟨_, if destIdx = nIdx
      then pushBlq n.id_number ind.id_number
        (setIndAt indIdx { ind with is_blocked := true } n)
      else setIndAt indIdx { ind with is_blocked := true } n,
    { ind with is_blocked := true }, heq, ?_, ?_, rfl, rfl⟩
  · show ((s.nodes.modify (setIndAt indIdx { ind with is_blocked := true }) nIdx).modify
        (pushBlq n.id_number ind.id_number) destIdx).get? nIdx = _
    rw [List.get?_eq_getElem?, List.getElem?_modify, List.getElem?_modify, hn']
    by_cases hdn : destIdx = nIdx
    · simp [hdn]
    · simp [hdn]
  · have hsame : (if destIdx = nIdx
        then pushBlq n.id_number ind.id_number
          (setIndAt indIdx { ind with is_blocked := true } n)
        else setIndAt indIdx { ind with is_blocked := true } n).individuals =
        n.individuals.set indIdx { ind with is_blocked := true } := by
      split <;> rfl
    rw [hsame, List.get?_eq_getElem?, List.getElem?_set]
    simp [hlen]

/-- C9 counterexample: after `block_individual`, the blocked individual
has `is_blocked = true` and still holds its attached server, so the two
flags are simultaneously true, contradicting the claimed mutual
exclusion. -/
theorem claim_C9_counterexample :
    ((block_individual c9state 0 0 0).bind (fun s' =>
      (s'.nodes.get? 0).bind (fun n => n.individuals.get? 0))).map
        (fun i => (i.is_blocked, i.server)) = some (true, some (1, 1)) := by
  decide

/-- Witness for the amended C9 theorem at the concrete counterexample
state. -/
theorem claim_C9_witness :
    ∃ s' n' ind', block_individual c9state 0 0 0 = some s' ∧
      s'.nodes.get? 0 = some n' ∧
      n'.individuals.get? 0 = some ind' ∧
      ind'.is_blocked = true ∧ ind'.server = c9ind.server :=
  claim_C9_amended c9state 0 0 0 c9node c9node c9ind rfl rfl rfl

/-- Membership in the edge list after one `addEdge`. -/
theorem mem_addEdge (g : BGraph) (u v : Vertex) (e : Vertex × Vertex) :
    e ∈ (g.addEdge u v).edges ↔ e ∈ g.edges ∨ e = (u, v) := by
  unfold BGraph.addEdge
  split
  · rename_i hmem
    constructor
    · exact Or.inl
    · rintro (h | rfl)
      · exact h
      · exact hmem
  · simp [or_comm]

/-- Membership in the edge list after the `block_individual` edge fold:
an edge is old, or goes from the blocked individual's server to a server
of the destination. -/
theorem mem_blockFold (u : Vertex) (e : Vertex × Vertex) :
    ∀ (l : List Server) (g : BGraph),
      e ∈ (l.foldl (fun g svr => g.addEdge u (some svr.ref)) g).edges ↔
        e ∈ g.edges ∨ (e.1 = u ∧ ∃ svr ∈ l, e.2 = some svr.ref) := by
  intro l
  induction l with
  | nil => intro g; simp
  | cons sv rest ih =>
    intro g
    rw [List.foldl_cons, ih, mem_addEdge]
    constructor
    · rintro ((h | rfl) | ⟨h1, svr, hmem, h2⟩)
      · exact Or.inl h
      · exact Or.inr ⟨rfl, sv, List.mem_cons_self _ _, rfl⟩
      · exact Or.inr ⟨h1, svr, List.mem_cons_of_mem _ hmem, h2⟩
    · rintro (h | ⟨h1, svr, hmem, h2⟩)
      · exact Or.inl (Or.inl h)
      · rcases List.mem_cons.mp hmem with rfl | hmem'
        · obtain ⟨e1, e2⟩ := e
          dsimp only at h1 h2
          subst h1
          subst h2
          exact Or.inl (Or.inr rfl)
        · exact Or.inr ⟨h1, svr, hmem', h2⟩

/-- Membership in the edge list after `addBlockEdges`: every new edge
points at the newly attached server `v` and starts at the server of an
individual recorded in the processed blocked-queue entries. -/
theorem mem_addBlockEdges (selfId : ℕ) (v : Vertex) :
    ∀ (q : List (ℕ × ℕ)) (s s' : SimState),
      addBlockEdges selfId v q s = some s' →
      ∀ e, e ∈ s'.digraph.edges →
        e ∈ s.digraph.edges ∨
        (e.2 = v ∧ ∃ en ∈ q, ∃ k m w, getNodePy s en.1 = some (k, m) ∧
          m.individuals.find? (fun x => decide (x.id_number = en.2)) = some w ∧
          e.1 = w.server) := by
  intro q
  induction q with
  | nil =>
    intro s s' h e he
    simp [addBlockEdges] at h
    subst h
    exact Or.inl he
  | cons en rest ih =>
    intro s s' h e he
    obtain ⟨oid, iid⟩ := en
    unfold addBlockEdges at h
    cases hget : getNodePy s oid with
    | none => rw [hget] at h; exact Option.noConfusion h
    | some pr =>
      rw [hget] at h
      obtain ⟨k, m⟩ := pr
      dsimp only at h
      cases hfind : m.individuals.find? (fun x => decide (x.id_number = iid)) with
      | none => rw [hfind] at h; exact Option.noConfusion h
      | some w =>
        rw [hfind] at h
        dsimp only at h
        by_cases hne : w.id_number ≠ selfId
        · rw [if_pos hne] at h
          rcases ih _ _ h e he with hold | ⟨h2, en', hmem, k', m', w', hget', hfind', h1⟩
          · rcases (mem_addEdge s.digraph w.server v e).mp hold with hstill | rfl
            · exact Or.inl hstill
            · exact Or.inr ⟨rfl, (oid, iid), List.mem_cons_self _ _, k, m, w,
                hget, hfind, rfl⟩
          · exact Or.inr ⟨h2, en', List.mem_cons_of_mem _ hmem, k', m', w',
              hget', hfind', h1⟩
        · rw [if_neg hne] at h
          rcases ih _ _ h e he with hold | ⟨h2, en', hmem, k', m', w', hget', hfind', h1⟩
          · exact Or.inl hold
          · exact Or.inr ⟨h2, en', List.mem_cons_of_mem _ hmem, k', m', w',
              hget', hfind', h1⟩

/-- C10 amended: blocking-graph edges are added in exactly two places:
`block_individual` adds the edges from the blocked individual's server to
every server of the destination node, and `attach_server` adds, for each
individual waiting in the attaching node's `blocked_queue`, an edge from
that individual's server to the newly attached server; and
`detatch_server` removes every edge incident to the detached server. -/
theorem claim_C10_amended :
    (∀ (s : SimState) (nIdx : ℕ) (svRef : ServerRef) (ind : Individual),
      ∀ e ∈ (detatch_server s nIdx svRef ind).2.digraph.edges,
        e ∈ s.digraph.edges ∧ e.1 ≠ some svRef ∧ e.2 ≠ some svRef)
    ∧ (∀ (s : SimState) (nIdx indIdx destIdx : ℕ) (n d : Node)
        (ind : Individual) (s' : SimState),
        s.nodes.get? nIdx = some n → n.individuals.get? indIdx = some ind →
        s.nodes.get? destIdx = some d →
        block_individual s nIdx indIdx destIdx = some s' →
        ∀ e, e ∈ s'.digraph.edges ↔
          (e ∈ s.digraph.edges ∨
            (e.1 = ind.server ∧ ∃ svr ∈ d.servers, e.2 = some svr.ref)))
    ∧ (∀ (s : SimState) (nIdx : ℕ) (sv : Server) (ind ind' : Individual)
        (s' : SimState) (n : Node),
        s.nodes.get? nIdx = some n →
        attach_server s nIdx sv ind = some (ind', s') →
        ∀ e, e ∈ s'.digraph.edges →
          e ∈ s.digraph.edges ∨
          (e.2 = some sv.ref ∧ ∃ en ∈ n.blocked_queue, ∃ k m w,
            getNodePy s en.1 = some (k, m) ∧
            m.individuals.find? (fun x => decide (x.id_number = en.2)) = some w ∧
            e.1 = w.server)) := by
  refine ⟨?_, ?_, ?_⟩
  · intro s nIdx svRef ind e he
    have he' : e ∈ s.digraph.edges.filter
        (fun e => !(decide (e.1 = some svRef) || decide (e.2 = some svRef))) := he
    obtain ⟨hmem, hpred⟩ := List.mem_filter.mp he'
    simp only [Bool.not_eq_true', Bool.or_eq_false_iff, decide_eq_false_iff_not] at hpred
    exact ⟨hmem, hpred.1, hpred.2⟩
  · intro s nIdx indIdx destIdx n d ind s' hn hi hd h e
    rw [block_individual_eq s nIdx indIdx destIdx n d ind hn hi hd] at h
    obtain rfl := (Option.some.injEq .. ▸ h)
    exact mem_blockFold ind.server e d.servers s.digraph
  · intro s nIdx sv ind ind' s' n hn h e he
    have hn2 : s.nodes[nIdx]? = some n := by
      rw [← List.get?_eq_getElem?]
      exact hn
    unfold attach_server at h
    rw [hn] at h
    dsimp only at h
    rw [Option.map_eq_some'] at h
    obtain ⟨s2, habe, heq⟩ := h
    have hs2 : s' = s2 := (congrArg Prod.snd heq).symm
    subst hs2
    rcases mem_addBlockEdges ind.id_number (some sv.ref) n.blocked_queue _ _ habe e he
      with hold | ⟨h2, en, hmem, k, m', w, hget', hfind', h1⟩
    · exact Or.inl hold
    · refine Or.inr ⟨h2, en, hmem, ?_⟩
      obtain ⟨oid, iid⟩ := en
      match oid, hget' with
      | 0, hget' => exact absurd hget' (by simp [getNodePy])
      | j + 1, hget' =>
        simp only [getNodePy, updNode_get?] at hget'
        by_cases hj : nIdx = j
        · rw [if_pos hj] at hget'
          subst hj
          rw [hn] at hget'
          simp only [Option.map_some', Option.some.injEq, Prod.mk.injEq] at hget'
          obtain ⟨rfl, rfl⟩ := hget'
          exact ⟨nIdx, n, w, by simp [getNodePy, hn2], by simpa using hfind', h1⟩
        · rw [if_neg hj] at hget'
          cases hsj : s.nodes.get? j with
          | none =>
            rw [hsj] at hget'
            exact Option.noConfusion hget'
          | some m0 =>
            rw [hsj] at hget'
            have hsj2 : s.nodes[j]? = some m0 := by
              rw [← List.get?_eq_getElem?]
              exact hsj
            simp only [Option.map_some', Option.some.injEq, Prod.mk.injEq] at hget'
            obtain ⟨rfl, rfl⟩ := hget'
            exact ⟨j, m0, w, by simp [getNodePy, hsj2], hfind', h1⟩

/-- C10 counterexample: an `accept` (which performs no block) adds a
blocking-graph edge through `attach_server`, refuting the claim that
edges are added only when a block occurs. -/
theorem claim_C10_counterexample :
    c10state.digraph.edges = [] ∧
    (accept (fun _ _ => (1 : ℚ)) c10state 0 c10indnew 0).map
        (fun s' => s'.digraph.edges) =
      some [(some (1, 2), some (1, 1))] := by
  exact ⟨rfl, by decide⟩

/-- Witness for the amended C10 theorem: a concrete edge not incident to
the detached server survives `detatch_server` and is certified old and
non-incident. -/
theorem claim_C10_witness :
    (some ((2 : ℕ), (2 : ℕ)), some ((3 : ℕ), (3 : ℕ))) ∈ c10wstate.digraph.edges ∧
      (some ((2 : ℕ), (2 : ℕ)) : Vertex) ≠ some (1, 1) ∧
      (some ((3 : ℕ), (3 : ℕ)) : Vertex) ≠ some (1, 1) :=
  claim_C10_amended.1 c10wstate 0 (1, 1) c10indnew
    (some (2, 2), some (3, 3)) (by decide)

/-- Full characterisation of the `begin_service_if_possible_release` scan
loop over a duplicate-free list of positions: positions outside the list
are untouched; at listed positions, an individual that already holds a
server is untouched, and a serverless individual is attached to some
server with `service_start_date = t` and
`service_end_date = t + service_time`, the service time being the stored
one, not a fresh sample. -/
theorem bsrAux_spec (t : ℚ) (nIdx : ℕ) :
    ∀ (ps : List ℕ) (s s' : SimState), ps.Nodup →
      bsrAux t nIdx ps s = some s' →
      (∀ k, k ≠ nIdx → s'.nodes.get? k = s.nodes.get? k) ∧
      s'.exit_individuals = s.exit_individuals ∧ s'.state = s.state ∧
      (∀ m, s.nodes.get? nIdx = some m → ∃ m', s'.nodes.get? nIdx = some m' ∧
        m'.c = m.c ∧ m'.node_capacity = m.node_capacity ∧
        m'.id_number = m.id_number ∧ m'.blocked_queue = m.blocked_queue ∧
        m'.individuals.length = m.individuals.length ∧
        (∀ i, i ∉ ps → m'.individuals.get? i = m.individuals.get? i) ∧
        (∀ i ∈ ps, ∀ ind, m.individuals.get? i = some ind →
          (ind.server.isSome = true → m'.individuals.get? i = some ind) ∧
          (ind.server = none → ∃ r, m'.individuals.get? i = some
            { ind with server := some r
                       service_start_date := t
                       service_end_date := t + ind.service_time }))) := by
  intro ps
  induction ps with
  | nil =>
    intro s s' _ h
    simp only [bsrAux, Option.some.injEq] at h
    subst h
    refine ⟨fun k _ => rfl, rfl, rfl, ?_⟩
    intro m hm
    exact ⟨m, hm, rfl, rfl, rfl, rfl, rfl, fun i _ => rfl, fun i hi => absurd hi
      (List.not_mem_nil i)⟩
  | cons i rest ih =>
    intro s s' hnodup h
    have hinotin : i ∉ rest := (List.nodup_cons.mp hnodup).1
    have hrestnd : rest.Nodup := (List.nodup_cons.mp hnodup).2
    unfold bsrAux at h
    cases hn : s.nodes.get? nIdx with
    | none => rw [hn] at h; exact Option.noConfusion h
    | some n =>
      rw [hn] at h
      dsimp only at h
      cases hind : n.individuals.get? i with
      | none =>
        rw [hind] at h
        obtain ⟨hframe, hexit, hstate, hself⟩ := ih s s' hrestnd h
        refine ⟨hframe, hexit, hstate, ?_⟩
        intro m hm
        obtain rfl : m = n := (Option.some.injEq .. ▸ hm).symm
        obtain ⟨m', hm', h1, h2, h3, h4, h5, hout, hin⟩ := hself m hn
        refine ⟨m', hm', h1, h2, h3, h4, h5, ?_, ?_⟩
        · intro j hj
          exact hout j (fun hmem => hj (List.mem_cons_of_mem _ hmem))
        · intro j hj ind hindj
          rcases List.mem_cons.mp hj with rfl | hjrest
          · rw [hindj] at hind
            exact Option.noConfusion hind
          · exact hin j hjrest ind hindj
      | some ind =>
        rw [hind] at h
        dsimp only at h
        by_cases hsrv : ind.server.isSome = true
        · rw [if_pos hsrv] at h
          obtain ⟨hframe, hexit, hstate, hself⟩ := ih s s' hrestnd h
          refine ⟨hframe, hexit, hstate, ?_⟩
          intro m hm
          obtain rfl : m = n := (Option.some.injEq .. ▸ hm).symm
          obtain ⟨m', hm', h1, h2, h3, h4, h5, hout, hin⟩ := hself m hn
          refine ⟨m', hm', h1, h2, h3, h4, h5, ?_, ?_⟩
          · intro j hj
            exact hout j (fun hmem => hj (List.mem_cons_of_mem _ hmem))
          · intro j hj ind0 hindj
            rcases List.mem_cons.mp hj with rfl | hjrest
            · rw [hindj] at hind
              obtain rfl := (Option.some.injEq .. ▸ hind)
              refine ⟨fun _ => ?_, fun hnone => ?_⟩
              · rw [hout j hinotin]
                exact hindj
              · rw [hnone] at hsrv
                exact absurd hsrv (by simp)
            · exact hin j hjrest ind0 hindj
        · rw [if_neg hsrv] at h
          have hnone : ind.server = none := Option.not_isSome_iff_eq_none.mp
            (fun hs => hsrv hs)
          cases hffs : find_free_server n with
          | none => rw [hffs] at h; exact Option.noConfusion h
          | some sv =>
            rw [hffs] at h
            dsimp only at h
            cases hat : attach_server s nIdx sv ind with
            | none => rw [hat] at h; exact Option.noConfusion h
            | some p =>
              rw [hat] at h
              obtain ⟨ind1, s1⟩ := p
              dsimp only at h
              obtain ⟨hind1, hexit1, hstate1, hnodes1⟩ :=
                attach_server_spec s nIdx sv ind ind1 s1 hat
              obtain ⟨hframe, hexit, hstate, hself⟩ := ih _ s' hrestnd h
              have hilen : i < n.individuals.length := by
                by_contra hge
                rw [List.get?_eq_none.mpr (le_of_not_lt hge)] at hind
                exact Option.noConfusion hind
              -- node nIdx in the intermediate state s2
              have hmid : (updNode s1 nIdx (setIndAt i
                  { ind1 with service_start_date := t
                              service_end_date := t + ind1.service_time })).nodes.get? nIdx =
                  some (setIndAt i
                    { ind1 with service_start_date := t
                                service_end_date := t + ind1.service_time }
                    { n with servers := n.servers.map (fun w =>
                        if w.ref = sv.ref
                        then { w with busy := true, cust := some ind.id_number }
                        else w) }) := by
                rw [updNode_get?, if_pos rfl, hnodes1, updNode_get?, if_pos rfl, hn]
                rfl
              refine ⟨?_, hexit.trans hexit1, hstate.trans hstate1, ?_⟩
              · intro k hk
                rw [hframe k hk, updNode_get?, if_neg (fun hh => hk hh.symm), hnodes1,
                  updNode_get?, if_neg (fun hh => hk hh.symm)]
              · intro m hm
                obtain rfl : m = n := (Option.some.injEq .. ▸ hm).symm
                obtain ⟨m', hm', h1, h2, h3, h4, h5, hout, hin⟩ := hself _ hmid
                subst hind1
                refine ⟨m', hm', h1, h2, h3, h4, ?_, ?_, ?_⟩
                · rw [h5]
                  exact List.length_set ..
                · intro j hj
                  rw [hout j (fun hmem => hj (List.mem_cons_of_mem _ hmem))]
                  show (m.individuals.set i _).get? j = m.individuals.get? j
                  rw [List.get?_eq_getElem?, List.get?_eq_getElem?, List.getElem?_set,
                    if_neg (fun hh => hj (by rw [← hh]; exact List.mem_cons_self i rest))]
                · intro j hj ind0 hindj
                  rcases List.mem_cons.mp hj with rfl | hjrest
                  · rw [hindj] at hind
                    obtain rfl := (Option.some.injEq .. ▸ hind)
                    refine ⟨fun hs => absurd hs hsrv, fun _ => ⟨sv.ref, ?_⟩⟩
                    rw [hout j hinotin]
                    show (m.individuals.set j _).get? j = _
                    rw [List.get?_eq_getElem?, List.getElem?_set, if_pos rfl]
                    rw [if_pos hilen]
                  · have hsame : (m.individuals.set i
                        { { ind with server := some sv.ref } with
                            service_start_date := t
                            service_end_date := t + ind.service_time }).get? j =
                        m.individuals.get? j := by
                      rw [List.get?_eq_getElem?, List.get?_eq_getElem?, List.getElem?_set,
                        if_neg (fun hh => hinotin (by rw [hh]; exact hjrest))]
                    exact hin j hjrest ind0 (hsame.trans hindj)

/-- Characterisation of `begin_service_if_possible_release`: nothing
happens with fewer than `c` individuals present; otherwise every
serverless individual among the first `c` service positions is attached
to a server with `service_start_date = t` and
`service_end_date = t + service_time` (the stored service time), every
other position being untouched. -/
theorem bsr_spec (s s' : SimState) (nIdx : ℕ) (t : ℚ) (n : Node)
    (hn : s.nodes.get? nIdx = some n)
    (h : begin_service_if_possible_release s nIdx t = some s') :
    (¬ n.c ≤ n.individuals.length → s' = s) ∧
    (n.c ≤ n.individuals.length →
      (∀ k, k ≠ nIdx → s'.nodes.get? k = s.nodes.get? k) ∧
      s'.exit_individuals = s.exit_individuals ∧ s'.state = s.state ∧
      ∃ m', s'.nodes.get? nIdx = some m' ∧ m'.c = n.c ∧
        m'.node_capacity = n.node_capacity ∧ m'.id_number = n.id_number ∧
        m'.blocked_queue = n.blocked_queue ∧
        m'.individuals.length = n.individuals.length ∧
        (∀ i, n.c ≤ i → m'.individuals.get? i = n.individuals.get? i) ∧
        (∀ i, i < n.c → ∀ ind, n.individuals.get? i = some ind →
          (ind.server.isSome = true → m'.individuals.get? i = some ind) ∧
          (ind.server = none → ∃ r, m'.individuals.get? i = some
            { ind with server := some r
                       service_start_date := t
                       service_end_date := t + ind.service_time }))) := by
  unfold begin_service_if_possible_release at h
  rw [hn] at h
  dsimp only at h
  split at h
  · rename_i hge
    obtain ⟨hframe, hexit, hstate, hself⟩ :=
      bsrAux_spec t nIdx (List.range n.c) s s' (List.nodup_range n.c) h
    obtain ⟨m', hm', h1, h2, h3, h4, h5, hout, hin⟩ := hself n hn
    refine ⟨fun hlt => absurd hge hlt, fun _ => ⟨hframe, hexit, hstate,
      m', hm', h1, h2, h3, h4, h5, ?_, ?_⟩⟩
    · intro i hi
      exact hout i (by simpa using not_lt.mpr hi)
    · intro i hi ind hindi
      exact hin i (List.mem_range.mpr hi) ind hindi
  · rename_i hlt
    simp only [Option.some.injEq] at h
    subst h
    exact ⟨fun _ => rfl, fun hge => absurd hge hlt⟩

unseal Rat.add Rat.mul Rat.inv Rat.sub Rat.ofScientific in
/-- C6 counterexample: at the release call site the code sets
`service_end_date = t + stored service_time` (here `10 + 5`), while the
claimed behaviour samples a fresh duration (here `10 + 7`); the two call
sites do not have identical effect. -/
theorem claim_C6_counterexample :
    ((begin_service_if_possible_release c6state 0 10).bind (fun s' =>
      (s'.nodes.get? 0).bind (fun n => n.individuals.get? 0))).map
        (fun i => i.service_end_date) = some 15 ∧
    ((begin_service_releaseC6spec c6S c6state 0 10).bind (fun s' =>
      (s'.nodes.get? 0).bind (fun n => n.individuals.get? 0))).map
        (fun i => i.service_end_date) = some 17 ∧
    (15 : ℚ) ≠ 17 := by
  refine ⟨by decide, by decide, by decide⟩

/-- C6 amended: at both call sites beginning service attaches a free
server to a serverless individual among the first `c` service positions
and sets `service_start_date = current_time` and
`service_end_date = start + duration`, but the duration differs: the
accept site samples it freshly from the node/class generator, while the
release site reuses the individual's `service_time` stored when it was
accepted; and an accepted individual is served immediately exactly when
the node has fewer than `c` present individuals at acceptance. -/
theorem claim_C6_amended :
    (∀ (S : ℕ → ℕ → ℚ) (s : SimState) (nIdx : ℕ) (ind : Individual) (t : ℚ)
      (ind' : Individual) (s' : SimState) (n : Node),
      s.nodes.get? nIdx = some n → ind.server = none →
      begin_service_if_possible_accept S s nIdx ind t = some (ind', s') →
      ind'.service_time = S n.id_number ind.customer_class ∧
      (ind'.server.isSome = true ↔ n.individuals.length < n.c) ∧
      (n.individuals.length < n.c → ind'.service_start_date = t ∧
        ind'.service_end_date = t + ind'.service_time))
    ∧ (∀ (s s' : SimState) (nIdx : ℕ) (t : ℚ) (n : Node),
      s.nodes.get? nIdx = some n →
      begin_service_if_possible_release s nIdx t = some s' →
      (¬ n.c ≤ n.individuals.length → s' = s) ∧
      (n.c ≤ n.individuals.length → ∃ m', s'.nodes.get? nIdx = some m' ∧
        m'.individuals.length = n.individuals.length ∧
        (∀ i, n.c ≤ i → m'.individuals.get? i = n.individuals.get? i) ∧
        (∀ i, i < n.c → ∀ ind, n.individuals.get? i = some ind →
          (ind.server.isSome = true → m'.individuals.get? i = some ind) ∧
          (ind.server = none → ∃ r, m'.individuals.get? i = some
            { ind with server := some r
                       service_start_date := t
                       service_end_date := t + ind.service_time })))) := by
  constructor
  · intro S s nIdx ind t ind' s' n hn hnone h
    obtain ⟨_, _, hflds, hserved, hunserved⟩ := bsa_spec S s nIdx ind ind' t s' n hn h
    refine ⟨hflds.2.2.2.2.2.2, ?_, fun hlt => ⟨(hserved hlt).2.1, (hserved hlt).2.2⟩⟩
    constructor
    · intro hsome
      by_contra hge
      obtain ⟨hsrv, _⟩ := hunserved hge
      rw [hsrv, hnone] at hsome
      exact absurd hsome (by simp)
    · intro hlt
      obtain ⟨⟨r, hr⟩, _, _⟩ := hserved hlt
      rw [hr]
      rfl
  · intro s s' nIdx t n hn h
    obtain ⟨hno, hyes⟩ := bsr_spec s s' nIdx t n hn h
    refine ⟨hno, ?_⟩
    intro hge
    obtain ⟨_, _, _, m', hm', _, _, _, _, h5, hout, hin⟩ := hyes hge
    exact ⟨m', hm', h5, hout, hin⟩

unseal Rat.add Rat.mul Rat.inv Rat.sub Rat.ofScientific in
/-- Witness for the amended C6 theorem at the concrete release-site
state. -/
theorem claim_C6_witness :
    (¬ c6node.c ≤ c6node.individuals.length → c6result = c6state) ∧
    (c6node.c ≤ c6node.individuals.length → ∃ m',
      c6result.nodes.get? 0 = some m' ∧
      m'.individuals.length = c6node.individuals.length ∧
      (∀ i, c6node.c ≤ i → m'.individuals.get? i = c6node.individuals.get? i) ∧
      (∀ i, i < c6node.c → ∀ ind, c6node.individuals.get? i = some ind →
        (ind.server.isSome = true → m'.individuals.get? i = some ind) ∧
        (ind.server = none → ∃ r, m'.individuals.get? i = some
          { ind with server := some r
                     service_start_date := 10
                     service_end_date := 10 + ind.service_time }))) :=
  claim_C6_amended.2 c6state c6result 0 10 c6node rfl (by decide)

/-- C1: `finish_service` selects, among the first `c` individuals in the
present list, the first one (lowest index) whose `service_end_date`
equals the node's current `next_event_date`; it then releases that
individual to the routed destination when
`len(destination.individuals) < destination.node_capacity`, and
otherwise blocks it via `block_individual`. -/
theorem claim_C1 (S : ℕ → ℕ → ℚ) (rnd : ℚ) (fuel : ℕ) (s : SimState)
    (nIdx : ℕ) (n : Node) (ned : ℚ) (i : ℕ) (ind : Individual) (dest : Dest)
    (hn : s.nodes.get? nIdx = some n)
    (hned : n.next_event_date = some ned)
    (hfind : (n.individuals.take n.c).findIdx?
      (fun ind => decide (ind.service_end_date = ned)) = some i)
    (hind : n.individuals.get? i = some ind)
    (hdest : next_nodeD s n rnd ind.customer_class = some dest) :
    (i < n.c ∧ ind.service_end_date = ned ∧
      (∀ j, j < i → ∀ indj, n.individuals.get? j = some indj →
        indj.service_end_date ≠ ned)) ∧
    (destHasSpace s dest = true →
      finish_service S rnd fuel s nIdx = release S fuel s nIdx i dest ned) ∧
    (destHasSpace s dest = false →
      ∃ j, dest = Dest.node j ∧
        finish_service S rnd fuel s nIdx = block_individual s nIdx i j) := by
  obtain ⟨a, hget, hpa, hfirst⟩ := findIdx_some_char _ _ _ hfind
  have htake : ∀ j, j < n.c → (n.individuals.take n.c).get? j = n.individuals.get? j := by
    intro j hj
    rw [List.get?_eq_getElem?, List.get?_eq_getElem?, List.getElem?_take, if_pos hj]
  have hic : i < n.c := by
    by_contra hge
    rw [List.get?_eq_getElem?, List.getElem?_take, if_neg hge] at hget
    exact Option.noConfusion hget
  have hai : a = ind := by
    rw [htake i hic, hind] at hget
    exact (Option.some.injEq .. ▸ hget).symm
  subst hai
  have hsel : i < n.c ∧ a.service_end_date = ned ∧
      (∀ j, j < i → ∀ indj, n.individuals.get? j = some indj →
        indj.service_end_date ≠ ned) := by
    refine ⟨hic, by simpa using hpa, ?_⟩
    intro j hj indj hindj hcontra
    have := hfirst j hj indj (by rw [htake j (lt_trans hj hic), hindj])
    rw [hcontra] at this
    simp at this
  have hfs : finish_service S rnd fuel s nIdx =
      if destHasSpace s dest then release S fuel s nIdx i dest ned
      else match dest with
        | Dest.node j => block_individual s nIdx i j
        | Dest.exit => none := by
    unfold finish_service
    rw [hn]
    dsimp only
    rw [hned]
    dsimp only
    rw [hfind]
    dsimp only
    rw [hind]
    dsimp only
    simp only [hdest]
    by_cases hsp : destHasSpace s dest = true
    · rw [if_pos hsp, if_pos hsp]
    · rw [if_neg hsp, if_neg hsp]
      cases dest <;> rfl
  refine ⟨hsel, ?_, ?_⟩
  · intro hspace
    rw [hfs, if_pos hspace]
  · intro hfull
    cases dest with
    | exit => exact absurd hfull (by simp [destHasSpace])
    | node j =>
      refine ⟨j, rfl, ?_⟩
      rw [hfs, if_neg (by rw [hfull]; exact Bool.false_ne_true)]

/-- Witness for C1 at a concrete state: the event fires as a release of
the selected individual to the routed destination. -/
theorem claim_C1_witness :
    finish_service c1S 0 5 c1state 0 = release c1S 5 c1state 0 0 (Dest.node 0) 3 := by
  have h := claim_C1 c1S 0 5 c1state 0 c1node 3 0 c1ind (Dest.node 0)
    rfl rfl (by decide) rfl (by decide)
  exact h.2.1 (by decide)

/-- C4: `release_blocked_individual` processing is FIFO: with a non-empty
`blocked_queue` it pops exactly the head entry `(origin_id,
individual_id)`, locates the first individual with that id at the origin
node, and invokes `release` on the origin node with this node as
destination; with an empty queue it does nothing; and `block_individual`
appends new entries at the tail, so earlier-blocked individuals are
admitted first. -/
theorem claim_C4 (S : ℕ → ℕ → ℚ) (fuel : ℕ) (s : SimState) (nIdx : ℕ)
    (n : Node) (t : ℚ) (hn : s.nodes.get? nIdx = some n) :
    (n.blocked_queue = [] →
      release_blocked_individual S (fuel + 1) s nIdx t = some s) ∧
    (∀ oid iid rest, n.blocked_queue = (oid, iid) :: rest →
      ∀ oIdx onode, getNodePy s oid = some (oIdx, onode) →
      ∀ ri, onode.individuals.findIdx?
        (fun j => decide (j.id_number = iid)) = some ri →
      ((∃ indr, onode.individuals.get? ri = some indr ∧ indr.id_number = iid ∧
        ∀ j, j < ri → ∀ indj, onode.individuals.get? j = some indj →
          indj.id_number ≠ iid) ∧
      release_blocked_individual S (fuel + 1) s nIdx t =
        release S fuel (updNode s nIdx (fun m =>
          { m with blocked_queue := m.blocked_queue.drop 1 }))
          oIdx ri (Dest.node nIdx) t)) ∧
    (∀ indIdx destIdx d ind s', n.individuals.get? indIdx = some ind →
      s.nodes.get? destIdx = some d →
      block_individual s nIdx indIdx destIdx = some s' →
      ∃ d', s'.nodes.get? destIdx = some d' ∧
        d'.blocked_queue = d.blocked_queue ++ [(n.id_number, ind.id_number)]) := by
  refine ⟨?_, ?_, ?_⟩
  · intro hq
    unfold release_blocked_individual
    rw [hn]
    dsimp only
    rw [hq]
  · intro oid iid rest hq oIdx onode hono ri hri
    constructor
    · obtain ⟨indr, hget, hid, hfirst⟩ := findIdx_some_char _ _ _ hri
      refine ⟨indr, hget, by simpa using hid, ?_⟩
      intro j hj indj hindj hcontra
      have := hfirst j hj indj hindj
      rw [hcontra] at this
      simp at this
    · unfold release_blocked_individual
      rw [hn]
      dsimp only
      rw [hq]
      dsimp only
      rw [hono]
      dsimp only
      rw [hri]
  · intro indIdx destIdx d ind s' hi hd h
    rw [block_individual_eq s nIdx indIdx destIdx n d ind hn hi hd] at h
    obtain rfl := (Option.some.injEq .. ▸ h)
    have hd2 : d.node_capacity = d.node_capacity := rfl
    refine ⟨pushBlq n.id_number ind.id_number
      (if nIdx = destIdx
        then setIndAt indIdx { ind with is_blocked := true } n else d), ?_, ?_⟩
    · show ((s.nodes.modify (setIndAt indIdx { ind with is_blocked := true }) nIdx).modify
          (pushBlq n.id_number ind.id_number) destIdx).get? destIdx = _
      have hd' : s.nodes[destIdx]? = some d := by
        rw [← List.get?_eq_getElem?]
        exact hd
      have hn' : s.nodes[nIdx]? = some n := by
        rw [← List.get?_eq_getElem?]
        exact hn
      rw [List.get?_eq_getElem?, List.getElem?_modify, List.getElem?_modify]
      by_cases hk : nIdx = destIdx
      · subst hk
        rw [hn']
        simp
      · rw [hd']
        simp [hk]
    · split
      · rename_i hk
        have hdn : d = n := by
          rw [← hk] at hd
          rw [hn] at hd
          exact (Option.some.injEq .. ▸ hd).symm
        rw [hdn]
        rfl
      · rfl

/-- Witness for C4 at a concrete state: the head entry is popped and the
named individual is released from its origin with this node as
destination. -/
theorem claim_C4_witness :
    release_blocked_individual c4S 6 c4state 1 9 =
      release c4S 5 (updNode c4state 1 (fun m =>
        { m with blocked_queue := m.blocked_queue.drop 1 })) 0 0 (Dest.node 1) 9 := by
  have h := (claim_C4 c4S 5 c4state 1 c4n2 9 rfl).2.1 1 5 [] rfl 0 c4n1
    (by decide) 0 (by decide)
  exact h.2

/-- Projection of `change_state_release` on the counters: the blocked
counter is decremented when the departing individual is marked blocked,
the in-service counter otherwise. -/
theorem change_state_release_state (s : SimState) (idNum : ℕ) (ind : Individual) :
    (change_state_release s idNum ind).state =
      (if ind.is_blocked
        then s.state.modify (fun p => (p.1, p.2 - 1)) (idNum - 1)
        else s.state.modify (fun p => (p.1 - 1, p.2)) (idNum - 1)) := by
  unfold change_state_release
  cases ind.is_blocked <;> simp

/-- C3: a `release` performs its effects in exactly this order: remove
the individual from the present list; stamp `exit_date = current_time`;
detach its server, after which no blocking-graph edge incident to that
server remains; emit the visit record; decrement the blocked counter if
the individual was marked blocked and otherwise the in-service counter;
release one individual from this node's `blocked_queue`; begin service
for the freed slot; and finally call `accept` on the destination. -/
theorem claim_C3 (S : ℕ → ℕ → ℚ) (fuel : ℕ) (s : SimState)
    (nIdx indIdx : ℕ) (dest : Dest) (t : ℚ) (n : Node) (ind0 : Individual)
    (svRef : ServerRef)
    (hn : s.nodes.get? nIdx = some n)
    (hi : n.individuals.get? indIdx = some ind0)
    (hsrv : ind0.server = some svRef) :
    ∃ ind2 s2 ind3,
      (ind2, s2) = detatch_server (updNode s nIdx (fun m =>
        { m with individuals := m.individuals.eraseIdx indIdx })) nIdx svRef
        { ind0 with exit_date := t } ∧
      (∀ e ∈ s2.digraph.edges, e.1 ≠ some svRef ∧ e.2 ≠ some svRef) ∧
      ind3 = write_individual_record n.id_number ind2 ∧
      ind3.data_records = ind0.data_records ++
        [⟨ind0.arrival_date, ind0.service_time, ind0.service_start_date, t,
          n.id_number⟩] ∧
      ind3.is_blocked = ind0.is_blocked ∧ ind3.server = none ∧
      (change_state_release s2 n.id_number ind3).state =
        (if ind0.is_blocked
          then s2.state.modify (fun p => (p.1, p.2 - 1)) (n.id_number - 1)
          else s2.state.modify (fun p => (p.1 - 1, p.2)) (n.id_number - 1)) ∧
      release S (fuel + 1) s nIdx indIdx dest t =
        (release_blocked_individual S fuel
            (change_state_release s2 n.id_number ind3) nIdx t).bind (fun s4 =>
          (begin_service_if_possible_release s4 nIdx t).bind (fun s5 =>
            acceptDest S s5 dest ind3 t)) := by
  refine ⟨(detatch_server (updNode s nIdx (fun m =>
      { m with individuals := m.individuals.eraseIdx indIdx })) nIdx svRef
      { ind0 with exit_date := t }).1,
    (detatch_server (updNode s nIdx (fun m =>
      { m with individuals := m.individuals.eraseIdx indIdx })) nIdx svRef
      { ind0 with exit_date := t }).2,
    write_individual_record n.id_number
      (detatch_server (updNode s nIdx (fun m =>
        { m with individuals := m.individuals.eraseIdx indIdx })) nIdx svRef
        { ind0 with exit_date := t }).1,
    rfl, ?_, rfl, rfl, rfl, rfl, ?_, ?_⟩
  · intro e he
    have he' : e ∈ ((updNode s nIdx (fun m =>
        { m with individuals := m.individuals.eraseIdx indIdx })).digraph.edges.filter
        (fun e => !(decide (e.1 = some svRef) || decide (e.2 = some svRef)))) := he
    obtain ⟨_, hpred⟩ := List.mem_filter.mp he'
    simp only [Bool.not_eq_true', Bool.or_eq_false_iff, decide_eq_false_iff_not] at hpred
    exact hpred
  · rw [change_state_release_state]
    rfl
  · unfold release
    rw [hn]
    dsimp only
    rw [hi]
    dsimp only
    simp only [hsrv]
    generalize detatch_server (updNode s nIdx (fun m =>
      { m with individuals := m.individuals.eraseIdx indIdx })) nIdx svRef
      { ind0 with exit_date := t, server := some svRef } = p
    cases release_blocked_individual S fuel
        (change_state_release p.2 n.id_number
          (write_individual_record n.id_number p.1)) nIdx t with
    | none => rfl
    | some s4 =>
      dsimp only [Option.bind]
      cases begin_service_if_possible_release s4 nIdx t with
      | none => rfl
      | some s5 => rfl

/-- Witness for C3 at a concrete state: every hypothesis of `claim_C3`
holds there and the release decomposes in the stated order. -/
theorem claim_C3_witness :
    c3state.nodes.get? 0 = some c3node ∧
    c3node.individuals.get? 0 = some c3ind ∧
    c3ind.server = some (1, 1) ∧
    ∃ ind2 s2 ind3,
      (ind2, s2) = detatch_server (updNode c3state 0 (fun m =>
        { m with individuals := m.individuals.eraseIdx 0 })) 0 (1, 1)
        { c3ind with exit_date := 5 } ∧
      (∀ e ∈ s2.digraph.edges, e.1 ≠ some (1, 1) ∧ e.2 ≠ some (1, 1)) ∧
      ind3 = write_individual_record c3node.id_number ind2 ∧
      ind3.data_records = c3ind.data_records ++
        [⟨c3ind.arrival_date, c3ind.service_time, c3ind.service_start_date, 5,
          c3node.id_number⟩] ∧
      ind3.is_blocked = c3ind.is_blocked ∧ ind3.server = none ∧
      (change_state_release s2 c3node.id_number ind3).state =
        (if c3ind.is_blocked
          then s2.state.modify (fun p => (p.1, p.2 - 1)) (c3node.id_number - 1)
          else s2.state.modify (fun p => (p.1 - 1, p.2)) (c3node.id_number - 1)) ∧
      release c3S (1 + 1) c3state 0 0 Dest.exit 5 =
        (release_blocked_individual c3S 1
            (change_state_release s2 c3node.id_number ind3) 0 5).bind (fun s4 =>
          (begin_service_if_possible_release s4 0 5).bind (fun s5 =>
            acceptDest c3S s5 Dest.exit ind3 5)) :=
  ⟨rfl, rfl, rfl, claim_C3 c3S 1 c3state 0 0 Dest.exit 5 c3node c3ind (1, 1) rfl rfl rfl⟩

/-- `nodeBounds` unpacked into its two propositional halves. -/
theorem nodeBounds_iff (n : Node) :
    nodeBounds n = true ↔ capFits n ∧ tailFree n := by
  unfold nodeBounds
  rw [Bool.and_eq_true]
  constructor
  · rintro ⟨h1, h2⟩
    constructor
    · intro cap hcap
      simp only [hcap] at h1
      exact of_decide_eq_true h1
    · intro i ind hci hget
      have hmem : ind ∈ n.individuals.drop n.c := by
        have hd : (n.individuals.drop n.c).get? (i - n.c) = some ind := by
          rw [List.get?_eq_getElem?, List.getElem?_drop,
            Nat.add_sub_cancel' hci, ← List.get?_eq_getElem?]
          exact hget
        exact List.get?_mem hd
      exact Option.isNone_iff_eq_none.mp (List.all_eq_true.mp h2 ind hmem)
  · rintro ⟨h1, h2⟩
    refine ⟨?_, ?_⟩
    · cases hcap : n.node_capacity with
      | none => rfl
      | some cap => exact decide_eq_true (h1 cap hcap)
    · rw [List.all_eq_true]
      intro ind hmem
      obtain ⟨j, hj⟩ := List.get?_of_mem hmem
      rw [List.get?_eq_getElem?, List.getElem?_drop] at hj
      have hg : n.individuals.get? (n.c + j) = some ind := by
        rw [List.get?_eq_getElem?]; exact hj
      exact Option.isNone_iff_eq_none.mpr
        (h2 (n.c + j) ind (Nat.le_add_right _ _) hg)

/-- From `tailFree`, at most `c` individuals hold a server. -/
theorem serverCount_le_c (n : Node) (h : tailFree n) : serverCount n ≤ n.c := by
  unfold serverCount
  conv_lhs => rw [← List.take_append_drop n.c n.individuals]
  rw [List.filter_append, List.length_append]
  have hdrop : (n.individuals.drop n.c).filter (fun ind => ind.server.isSome) = [] := by
    rw [List.filter_eq_nil]
    intro a ha
    obtain ⟨j, hj⟩ := List.get?_of_mem ha
    rw [List.get?_eq_getElem?, List.getElem?_drop] at hj
    have hg : n.individuals.get? (n.c + j) = some a := by
      rw [List.get?_eq_getElem?]; exact hj
    have := h (n.c + j) a (Nat.le_add_right _ _) hg
    simp [this]
  rw [hdrop]
  simp only [List.length_nil, Nat.add_zero]
  calc ((n.individuals.take n.c).filter (fun ind => ind.server.isSome)).length
      ≤ (n.individuals.take n.c).length := List.length_filter_le _ _
    _ ≤ n.c := by rw [List.length_take]; exact min_le_left _ _

/-- `nodeBounds` only reads `c`, `node_capacity` and `individuals`. -/
theorem nodeBounds_congr (m m' : Node) (hc : m'.c = m.c)
    (hcap : m'.node_capacity = m.node_capacity)
    (hind : m'.individuals = m.individuals) :
    nodeBounds m' = nodeBounds m := by
  unfold nodeBounds
  rw [hc, hcap, hind]

/-- `simInv` read through `get?`. -/
theorem Inv_get? (s : SimState) (h : simInv s) (k : ℕ) (n : Node)
    (hget : s.nodes.get? k = some n) : nodeBounds n = true :=
  h n (List.get?_mem hget)

/-- `simInv` established through `get?`. -/
theorem Inv_of_get? (s : SimState)
    (h : ∀ k n, s.nodes.get? k = some n → nodeBounds n = true) : simInv s := by
  intro n hn
  obtain ⟨k, hk⟩ := List.get?_of_mem hn
  exact h k n hk

/-- `simInv` transfers along equal node lists. -/
theorem Inv_nodes_eq (s s' : SimState) (h : s'.nodes = s.nodes)
    (hI : simInv s) : simInv s' := by
  intro n hn
  exact hI n (h ▸ hn)

/-- `updNode` with a per-node bound-preserving function preserves `simInv`. -/
theorem Inv_updNode (s : SimState) (k : ℕ) (f : Node → Node)
    (hf : ∀ m, nodeBounds m = true → nodeBounds (f m) = true)
    (h : simInv s) : simInv (updNode s k f) := by
  apply Inv_of_get?
  intro j n hget
  rw [updNode_get?] at hget
  split at hget
  · rw [Option.map_eq_some'] at hget
    obtain ⟨m, hm, rfl⟩ := hget
    exact hf m (Inv_get? s h j m hm)
  · exact Inv_get? s h j n hget

/-- `updNode` with an attribute-preserving function is a `nodesFrame`. -/
theorem nodesFrame_updNode (s : SimState) (k : ℕ) (f : Node → Node)
    (hf : ∀ m, (f m).c = m.c ∧ (f m).node_capacity = m.node_capacity) :
    nodesFrame s (updNode s k f) := by
  refine ⟨updNode_length s k f, ?_⟩
  intro j m hm
  rw [updNode_get?]
  split
  · rw [hm]
    exact ⟨f m, rfl, (hf m).1, (hf m).2⟩
  · exact ⟨m, hm, rfl, rfl⟩

/-- `nodesFrame` is reflexive. -/
theorem nodesFrame_rfl (s : SimState) : nodesFrame s s :=
  ⟨rfl, fun _ m hm => ⟨m, hm, rfl, rfl⟩⟩

/-- `nodesFrame` transfers along equal node lists. -/
theorem nodesFrame_nodes_eq (s s' : SimState) (h : s'.nodes = s.nodes) :
    nodesFrame s s' := by
  refine ⟨by rw [h], ?_⟩
  intro k m hm
  rw [show s'.nodes.get? k = s.nodes.get? k from by rw [h]]
  exact ⟨m, hm, rfl, rfl⟩

/-- `nodesFrame` is transitive. -/
theorem nodesFrame_trans (s1 s2 s3 : SimState) (h12 : nodesFrame s1 s2)
    (h23 : nodesFrame s2 s3) : nodesFrame s1 s3 := by
  refine ⟨h23.1.trans h12.1, ?_⟩
  intro k m hm
  obtain ⟨m2, hm2, hc2, hcap2⟩ := h12.2 k m hm
  obtain ⟨m3, hm3, hc3, hcap3⟩ := h23.2 k m2 hm2
  exact ⟨m3, hm3, hc3.trans hc2, hcap3.trans hcap2⟩

/-- `nodeLen` transfers along equal node lists. -/
theorem nodeLen_nodes_eq (s s' : SimState) (h : s'.nodes = s.nodes) (k : ℕ) :
    nodeLen s' k = nodeLen s k := by
  unfold nodeLen
  rw [h]

/-- Removing an individual preserves a node's bounds. -/
theorem nodeBounds_eraseIdx (m : Node) (i : ℕ) (h : nodeBounds m = true) :
    nodeBounds { m with individuals := m.individuals.eraseIdx i } = true := by
  rw [nodeBounds_iff] at h ⊢
  obtain ⟨h1, h2⟩ := h
  constructor
  · intro cap hcap
    exact le_trans (List.length_eraseIdx_le ..) (h1 cap hcap)
  · intro j ind hcj hget
    rw [List.get?_eq_getElem?, List.getElem?_eraseIdx] at hget
    split at hget
    · exact h2 j ind hcj (by rw [List.get?_eq_getElem?]; exact hget)
    · exact h2 (j + 1) ind (le_trans hcj (Nat.le_succ j))
        (by rw [List.get?_eq_getElem?]; exact hget)

/-- Overwriting a service position (index below `c`) preserves a node's
bounds. -/
theorem nodeBounds_set_lt (m : Node) (i : ℕ) (ind1 : Individual)
    (hi : i < m.c) (h : nodeBounds m = true) :
    nodeBounds { m with individuals := m.individuals.set i ind1 } = true := by
  rw [nodeBounds_iff] at h ⊢
  obtain ⟨h1, h2⟩ := h
  constructor
  · intro cap hcap
    rw [List.length_set]
    exact h1 cap hcap
  · intro j ind hcj hget
    rw [List.get?_eq_getElem?, List.getElem?_set] at hget
    rw [if_neg (Nat.ne_of_lt (lt_of_lt_of_le hi hcj))] at hget
    exact h2 j ind hcj (by rw [List.get?_eq_getElem?]; exact hget)

/-- Overwriting a position with an individual holding the same server
preserves a node's bounds. -/
theorem nodeBounds_set_sameServer (m : Node) (i : ℕ) (ind ind1 : Individual)
    (hget0 : m.individuals.get? i = some ind) (hsrv : ind1.server = ind.server)
    (h : nodeBounds m = true) :
    nodeBounds { m with individuals := m.individuals.set i ind1 } = true := by
  rw [nodeBounds_iff] at h ⊢
  obtain ⟨h1, h2⟩ := h
  constructor
  · intro cap hcap
    rw [List.length_set]
    exact h1 cap hcap
  · intro j ind2 hcj hget
    rw [List.get?_eq_getElem?, List.getElem?_set] at hget
    by_cases hij : i = j
    · rw [if_pos hij] at hget
      split at hget
      · obtain rfl := (Option.some.injEq ..).mp hget
        rw [hsrv]
        exact h2 j ind hcj (hij ▸ hget0)
      · exact Option.noConfusion hget
    · rw [if_neg hij] at hget
      exact h2 j ind2 hcj (by rw [List.get?_eq_getElem?]; exact hget)

/-- Appending an individual preserves a node's bounds when the node has
admission space and the newcomer carries no server unless it lands in a
service position. -/
theorem nodeBounds_append (m : Node) (ind1 : Individual)
    (hcap : ltCap m.individuals.length m.node_capacity = true)
    (hsrv : m.c ≤ m.individuals.length → ind1.server = none)
    (h : nodeBounds m = true) :
    nodeBounds { m with individuals := m.individuals ++ [ind1] } = true := by
  rw [nodeBounds_iff] at h ⊢
  obtain ⟨h1, h2⟩ := h
  constructor
  · intro cap hc
    rw [List.length_append]
    unfold ltCap at hcap
    rw [hc] at hcap
    exact Nat.succ_le_of_lt (of_decide_eq_true hcap)
  · intro j ind hcj hget
    rw [List.get?_eq_getElem?, List.getElem?_append] at hget
    split at hget
    · exact h2 j ind hcj (by rw [List.get?_eq_getElem?]; exact hget)
    · rename_i hge
      cases hk : j - m.individuals.length with
      | zero =>
        rw [hk] at hget
        have hind : ind = ind1 := by
          have : some ind1 = some ind := hget
          exact (Option.some.injEq ..).mp this.symm
        have hjlen : m.c ≤ m.individuals.length :=
          le_trans hcj (Nat.sub_eq_zero_iff_le.mp hk)
        rw [hind]
        exact hsrv hjlen
      | succ k =>
        rw [hk] at hget
        exact Option.noConfusion hget

/-- `updNode` preserves `simInv` when the bound check holds of the image
of the node actually stored at the modified index. -/
theorem Inv_updNode_at (s : SimState) (k : ℕ) (f : Node → Node) (n : Node)
    (hn : s.nodes.get? k = some n) (hfn : nodeBounds (f n) = true)
    (h : simInv s) : simInv (updNode s k f) := by
  apply Inv_of_get?
  intro j m hget
  rw [updNode_get?] at hget
  split at hget
  · rename_i hkj
    rw [← hkj, hn] at hget
    obtain rfl := (Option.some.injEq ..).mp hget
    exact hfn
  · exact Inv_get? s h j m hget

/-- `updNode` with an occupancy-preserving function keeps every
`nodeLen`. -/
theorem nodeLen_updNode (s : SimState) (k : ℕ) (f : Node → Node)
    (hf : ∀ m, (f m).individuals.length = m.individuals.length) (j : ℕ) :
    nodeLen (updNode s k f) j = nodeLen s j := by
  unfold nodeLen
  rw [updNode_get?]
  split
  · cases s.nodes.get? j with
    | none => rfl
    | some m => simp [hf]
  · rfl

/-- The loop of `begin_service_if_possible_release` preserves the C8
invariant, the per-node attributes, and every occupancy, provided every
visited position is a service position of the node being scanned. -/
theorem bsrAux_inv (t : ℚ) (nIdx : ℕ) :
    ∀ (ps : List ℕ) (s s' : SimState), simInv s →
      (∀ cm, s.nodes.get? nIdx = some cm → ∀ i ∈ ps, i < cm.c) →
      bsrAux t nIdx ps s = some s' →
      simInv s' ∧ nodesFrame s s' ∧ ∀ k, nodeLen s' k = nodeLen s k := by
  intro ps
  induction ps with
  | nil =>
    intro s s' hI _ h
    simp only [bsrAux, Option.some.injEq] at h
    subst h
    exact ⟨hI, nodesFrame_rfl s, fun _ => rfl⟩
  | cons i rest ih =>
    intro s s' hI hps h
    unfold bsrAux at h
    split at h
    · exact Option.noConfusion h
    · rename_i n hn
      split at h
      · exact ih s s' hI
          (fun cm hcm j hj => hps cm hcm j (List.mem_cons_of_mem _ hj)) h
      · rename_i ind hind
        split at h
        · exact ih s s' hI
            (fun cm hcm j hj => hps cm hcm j (List.mem_cons_of_mem _ hj)) h
        · split at h
          · exact Option.noConfusion h
          · rename_i sv hsv
            split at h
            · exact Option.noConfusion h
            · rename_i ind1 s1 hat
              obtain ⟨hind1, hexit, hstate, hnodes⟩ :=
                attach_server_spec _ _ _ _ _ _ hat
              have hic : i < n.c := hps n hn i (List.mem_cons_self i rest)
              have hs1n : s1.nodes.get? nIdx = some { n with
                  servers := n.servers.map (fun w =>
                    if w.ref = sv.ref
                    then { w with busy := true, cust := some ind.id_number }
                    else w) } := by
                rw [show s1.nodes.get? nIdx = (updNode s nIdx (fun m =>
                  { m with servers := m.servers.map (fun w =>
                    if w.ref = sv.ref
                    then { w with busy := true, cust := some ind.id_number }
                    else w) })).nodes.get? nIdx from by rw [hnodes]]
                rw [updNode_get?, if_pos rfl, hn]
                rfl
              have hIupd : simInv (updNode s nIdx (fun m =>
                  { m with servers := m.servers.map (fun w =>
                    if w.ref = sv.ref
                    then { w with busy := true, cust := some ind.id_number }
                    else w) })) :=
                Inv_updNode s nIdx _ (fun m hm =>
                  (nodeBounds_congr m _ rfl rfl rfl).trans hm) hI
              have hI1 : simInv s1 := Inv_nodes_eq _ _ hnodes hIupd
              have hI2 : simInv (updNode s1 nIdx (setIndAt i { ind1 with
                  service_start_date := t
                  service_end_date := t + ind1.service_time })) := by
                apply Inv_updNode_at s1 nIdx _ _ hs1n _ hI1
                exact nodeBounds_set_lt _ i _ hic
                  ((nodeBounds_congr n _ rfl rfl rfl).trans
                    (Inv_get? s hI nIdx n hn))
              obtain ⟨hI', hfr, hlen⟩ := ih _ s' hI2 (fun cm hcm j hj => by
                rw [updNode_get?, if_pos rfl, hs1n] at hcm
                simp only [Option.map_some', Option.some.injEq] at hcm
                subst hcm
                exact hps n hn j (List.mem_cons_of_mem _ hj)) h
              refine ⟨hI', ?_, ?_⟩
              · refine nodesFrame_trans s _ s' ?_ hfr
                refine nodesFrame_trans s _ _ ?_
                  (nodesFrame_updNode s1 nIdx _ (fun m => ⟨rfl, rfl⟩))
                refine nodesFrame_trans s _ _ ?_ (nodesFrame_nodes_eq _ _ hnodes)
                exact nodesFrame_updNode s nIdx _ (fun m => ⟨rfl, rfl⟩)
              · intro k
                rw [hlen k, nodeLen_updNode _ _ _ (fun m => List.length_set ..) k]
                rw [nodeLen_nodes_eq _ _ hnodes k]
                exact nodeLen_updNode s nIdx (fun m =>
                  { m with servers := m.servers.map (fun w =>
                      if w.ref = sv.ref
                      then { w with busy := true, cust := some ind.id_number }
                      else w) }) (fun m => rfl) k

/-- `begin_service_if_possible_release` preserves the C8 invariant, the
per-node attributes, and every occupancy. -/
theorem bsr_inv (s : SimState) (nIdx : ℕ) (t : ℚ) (s' : SimState)
    (hI : simInv s) (h : begin_service_if_possible_release s nIdx t = some s') :
    simInv s' ∧ nodesFrame s s' ∧ ∀ k, nodeLen s' k = nodeLen s k := by
  unfold begin_service_if_possible_release at h
  split at h
  · exact Option.noConfusion h
  · rename_i n hn
    split at h
    · refine bsrAux_inv t nIdx (List.range n.c) s s' hI ?_ h
      intro cm hcm i hi
      rw [hn] at hcm
      obtain rfl := (Option.some.injEq ..).mp hcm
      exact List.mem_range.mp hi
    · simp only [Option.some.injEq] at h
      subst h
      exact ⟨hI, nodesFrame_rfl s, fun _ => rfl⟩

/-- `block_individual` preserves the C8 invariant, the per-node
attributes, and every occupancy (the blocked individual stays in place,
keeping its server). -/
theorem block_inv (s : SimState) (nIdx indIdx destIdx : ℕ) (s' : SimState)
    (hI : simInv s) (h : block_individual s nIdx indIdx destIdx = some s') :
    simInv s' ∧ nodesFrame s s' ∧ ∀ k, nodeLen s' k = nodeLen s k := by
  unfold block_individual at h
  split at h
  · exact Option.noConfusion h
  · rename_i n hn
    split at h
    · exact Option.noConfusion h
    · rename_i ind hind
      dsimp only at h
      split at h
      · exact Option.noConfusion h
      · rename_i d hd
        simp only [Option.some.injEq] at h
        subst h
        have h1 : simInv (updNode s nIdx
            (setIndAt indIdx { ind with is_blocked := true })) :=
          Inv_updNode_at s nIdx _ n hn
            (nodeBounds_set_sameServer n indIdx ind _ hind rfl
              (Inv_get? s hI nIdx n hn)) hI
        have h2 : simInv (updNode (change_state_block (updNode s nIdx
            (setIndAt indIdx { ind with is_blocked := true })) n.id_number)
            destIdx (pushBlq n.id_number ind.id_number)) := by
          refine Inv_updNode _ destIdx _
            (fun m hm => (nodeBounds_congr m _ rfl rfl rfl).trans hm) ?_
          exact Inv_nodes_eq _ _ rfl h1
        have hfr1 : nodesFrame s (updNode s nIdx
            (setIndAt indIdx { ind with is_blocked := true })) :=
          nodesFrame_updNode s nIdx _ (fun m => ⟨rfl, rfl⟩)
        have hfr2 : nodesFrame (updNode s nIdx
            (setIndAt indIdx { ind with is_blocked := true }))
            (change_state_block (updNode s nIdx
              (setIndAt indIdx { ind with is_blocked := true })) n.id_number) :=
          nodesFrame_nodes_eq _ _ rfl
        have hfr3 : nodesFrame (change_state_block (updNode s nIdx
            (setIndAt indIdx { ind with is_blocked := true })) n.id_number)
            (updNode (change_state_block (updNode s nIdx
              (setIndAt indIdx { ind with is_blocked := true })) n.id_number)
              destIdx (pushBlq n.id_number ind.id_number)) :=
          nodesFrame_updNode _ destIdx _ (fun m => ⟨rfl, rfl⟩)
        have he1 : ∀ k, nodeLen (updNode s nIdx
            (setIndAt indIdx { ind with is_blocked := true })) k = nodeLen s k :=
          fun k => nodeLen_updNode s nIdx _ (fun m => List.length_set ..) k
        have he2 : ∀ k, nodeLen (change_state_block (updNode s nIdx
            (setIndAt indIdx { ind with is_blocked := true })) n.id_number) k =
            nodeLen (updNode s nIdx
              (setIndAt indIdx { ind with is_blocked := true })) k :=
          fun k => nodeLen_nodes_eq _ _ rfl k
        have he3 : ∀ k, nodeLen (updNode (change_state_block (updNode s nIdx
            (setIndAt indIdx { ind with is_blocked := true })) n.id_number)
            destIdx (pushBlq n.id_number ind.id_number)) k =
            nodeLen (change_state_block (updNode s nIdx
              (setIndAt indIdx { ind with is_blocked := true })) n.id_number) k :=
          fun k => nodeLen_updNode _ destIdx
            (pushBlq n.id_number ind.id_number) (fun m => rfl) k
        refine ⟨Inv_nodes_eq _ _ rfl h2, ?_, ?_⟩
        · exact nodesFrame_trans _ _ _ (nodesFrame_trans _ _ _
            (nodesFrame_trans _ _ _ hfr1 hfr2) hfr3)
            (nodesFrame_nodes_eq _ _ rfl)
        · intro k
          exact (nodeLen_nodes_eq _ _ rfl k).trans
            ((he3 k).trans ((he2 k).trans (he1 k)))

/-- `begin_service_if_possible_accept` keeps the number of nodes. -/
theorem bsa_length (S : ℕ → ℕ → ℚ) (s : SimState) (nIdx : ℕ)
    (ind ind' : Individual) (t : ℚ) (s' : SimState)
    (h : begin_service_if_possible_accept S s nIdx ind t = some (ind', s')) :
    s'.nodes.length = s.nodes.length := by
  unfold begin_service_if_possible_accept at h
  split at h
  · exact Option.noConfusion h
  · rename_i n hn
    dsimp only at h
    split at h
    · split at h
      · exact Option.noConfusion h
      · rename_i sv hsv
        rw [Option.map_eq_some'] at h
        obtain ⟨p, hat, heq⟩ := h
        obtain ⟨_, _, _, hnodes⟩ := attach_server_spec _ _ _ _ p.1 p.2 hat
        have hs' : s' = p.2 := (congrArg Prod.snd heq).symm
        subst hs'
        rw [hnodes]
        exact updNode_length ..
    · simp only [Option.some.injEq, Prod.mk.injEq] at h
      obtain ⟨-, hs⟩ := h
      rw [← hs]

/-- `accept` keeps the number of nodes. -/
theorem accept_length (S : ℕ → ℕ → ℚ) (s : SimState) (nIdx : ℕ)
    (ind : Individual) (t : ℚ) (s' : SimState)
    (h : accept S s nIdx ind t = some s') :
    s'.nodes.length = s.nodes.length := by
  unfold accept at h
  rw [Option.map_eq_some'] at h
  obtain ⟨p, hbsa, heq⟩ := h
  have hlen := bsa_length S s nIdx _ p.1 t p.2 hbsa
  rw [← heq]
  show (updNode p.2 nIdx _).nodes.length = s.nodes.length
  rw [updNode_length]
  exact hlen

/-- `accept` preserves the C8 invariant when the caller has checked
admission capacity and hands over a serverless individual; the target
node's occupancy grows by at most one and no other occupancy changes. -/
theorem accept_inv (S : ℕ → ℕ → ℚ) (s : SimState) (nIdx : ℕ)
    (ind : Individual) (t : ℚ) (s' : SimState) (n : Node)
    (hI : simInv s) (hn : s.nodes.get? nIdx = some n)
    (hcap : ltCap n.individuals.length n.node_capacity = true)
    (hsrv : ind.server = none)
    (h : accept S s nIdx ind t = some s') :
    simInv s' ∧ nodesFrame s s' ∧
      ∀ k, nodeLen s' k ≤ nodeLen s k + (if k = nIdx then 1 else 0) := by
  obtain ⟨ind', hflds, hserved, hunserved, hnodes, hexit, hstate⟩ :=
    accept_spec S s nIdx ind t s' n hn h
  have hlen := accept_length S s nIdx ind t s' h
  have hsrv' : n.c ≤ n.individuals.length → ind'.server = none := by
    intro hge
    obtain ⟨g1, -, -⟩ := hunserved (not_lt.mpr hge)
    exact g1.trans hsrv
  refine ⟨?_, ⟨hlen, fun k m hm => ?_⟩, fun k => ?_⟩
  · apply Inv_of_get?
    intro k m' hm'
    have hk : k < s.nodes.length := by
      rw [← hlen]
      exact (List.get?_eq_some.mp hm').1
    cases hm : s.nodes.get? k with
    | none =>
      exact absurd (List.get?_eq_none.mp hm) (not_le.mpr hk)
    | some m =>
      obtain ⟨m2, hm2, hc, hcap2, hid, hblq, hned, hne, heq2⟩ := hnodes k m hm
      obtain rfl : m' = m2 := by
        rw [hm'] at hm2
        exact (Option.some.injEq ..).mp hm2
      by_cases hk2 : k = nIdx
      · subst hk2
        obtain rfl : n = m := by
          rw [hn] at hm
          exact (Option.some.injEq ..).mp hm
        have hcongr : nodeBounds m' = nodeBounds
            { n with individuals := n.individuals ++ [ind'] } :=
          nodeBounds_congr _ _ hc hcap2 (heq2 rfl)
        rw [hcongr]
        exact nodeBounds_append n ind' hcap hsrv' (Inv_get? s hI k n hn)
      · have hcongr : nodeBounds m' = nodeBounds m :=
          nodeBounds_congr _ _ hc hcap2 (hne hk2)
        rw [hcongr]
        exact Inv_get? s hI k m hm
  · obtain ⟨m2, hm2, hc, hcap2, -, -, -, -, -⟩ := hnodes k m hm
    exact ⟨m2, hm2, hc, hcap2⟩
  · cases hm : s.nodes.get? k with
    | none =>
      have hge : s.nodes.length ≤ k := List.get?_eq_none.mp hm
      have hnone : s'.nodes.get? k = none := by
        rw [List.get?_eq_none.mpr]
        rw [hlen]
        exact hge
      unfold nodeLen
      rw [hm, hnone]
      exact Nat.zero_le _
    | some m =>
      obtain ⟨m2, hm2, hc, hcap2, -, -, -, hne, heq2⟩ := hnodes k m hm
      unfold nodeLen
      rw [hm, hm2]
      simp only [Option.map_some', Option.getD_some]
      by_cases hk2 : k = nIdx
      · rw [if_pos hk2, heq2 hk2, List.length_append]
        simp
      · rw [if_neg hk2, hne hk2]
        simp

/-- `change_state_release` only touches the counters. -/
theorem change_state_release_nodes (s : SimState) (idNum : ℕ)
    (ind : Individual) : (change_state_release s idNum ind).nodes = s.nodes := by
  unfold change_state_release
  split <;> rfl

/-- `acceptDest` preserves the C8 invariant when the destination has
admission space and the individual carries no server; only the
destination's occupancy grows, by at most one. -/
theorem acceptDest_inv (S : ℕ → ℕ → ℚ) (s : SimState) (dest : Dest)
    (ind : Individual) (t : ℚ) (s' : SimState)
    (hI : simInv s) (hspace : destHasSpace s dest = true)
    (hsrv : ind.server = none)
    (h : acceptDest S s dest ind t = some s') :
    simInv s' ∧ nodesFrame s s' ∧
      ∀ k, nodeLen s' k ≤ nodeLen s k + (if dest = Dest.node k then 1 else 0) := by
  cases dest with
  | node j =>
    unfold destHasSpace at hspace
    dsimp only at hspace
    cases hd : s.nodes.get? j with
    | none =>
      rw [hd] at hspace
      exact Bool.noConfusion hspace
    | some d =>
      rw [hd] at hspace
      dsimp only at hspace
      obtain ⟨h1, h2, h3⟩ := accept_inv S s j ind t s' d hI hd hspace hsrv h
      refine ⟨h1, h2, fun k => ?_⟩
      have hbump : (if Dest.node j = Dest.node k then (1 : ℕ) else 0) =
          (if k = j then 1 else 0) := by
        by_cases hk : k = j
        · rw [if_pos (by rw [hk]), if_pos hk]
        · rw [if_neg (fun hc => hk (Dest.node.inj hc).symm), if_neg hk]
      rw [hbump]
      exact h3 k
  | exit =>
    simp only [acceptDest, Option.some.injEq] at h
    subst h
    refine ⟨Inv_nodes_eq _ _ rfl hI, nodesFrame_nodes_eq _ _ rfl, fun k => ?_⟩
    rw [nodeLen_nodes_eq _ _ rfl k]
    exact Nat.le_add_right _ _

/-- `nodeLen` at the modified index of an `updNode`. -/
theorem nodeLen_updNode_at (s : SimState) (k : ℕ) (f : Node → Node) (n : Node)
    (hn : s.nodes.get? k = some n) :
    nodeLen (updNode s k f) k = (f n).individuals.length := by
  unfold nodeLen
  rw [updNode_get?, if_pos rfl, hn]
  rfl

/-- `nodeLen` away from the modified index of an `updNode`. -/
theorem nodeLen_updNode_ne (s : SimState) (k : ℕ) (f : Node → Node) (j : ℕ)
    (hj : k ≠ j) : nodeLen (updNode s k f) j = nodeLen s j := by
  unfold nodeLen
  rw [updNode_get?, if_neg hj]

/-- `nodeLen` read off a `get?`. -/
theorem nodeLen_of_get? (s : SimState) (k : ℕ) (n : Node)
    (hn : s.nodes.get? k = some n) : nodeLen s k = n.individuals.length := by
  unfold nodeLen
  rw [hn]
  rfl

/-- Mutual fuel induction for C8: `release` (under the caller's admission
check of the destination) and `release_blocked_individual` (under
admission space at the unblocking node, which the `release` that invokes
it has just created) preserve the invariant and the per-node attributes,
and only the destination's occupancy can grow, by at most one. -/
theorem release_rbi_inv (S : ℕ → ℕ → ℚ) : ∀ fuel : ℕ,
    (∀ s nIdx indIdx dest t s', simInv s → destHasSpace s dest = true →
      release S fuel s nIdx indIdx dest t = some s' →
      simInv s' ∧ nodesFrame s s' ∧
        ∀ k, nodeLen s' k ≤ nodeLen s k + (if dest = Dest.node k then 1 else 0)) ∧
    (∀ s nIdx t s', simInv s → destHasSpace s (Dest.node nIdx) = true →
      release_blocked_individual S fuel s nIdx t = some s' →
      simInv s' ∧ nodesFrame s s' ∧
        ∀ k, nodeLen s' k ≤ nodeLen s k + (if k = nIdx then 1 else 0)) := by
  intro fuel
  induction fuel with
  | zero =>
    constructor
    · intro s nIdx indIdx dest t s' _ _ h
      exact Option.noConfusion h
    · intro s nIdx t s' _ _ h
      exact Option.noConfusion h
  | succ fuel ih =>
    constructor
    · intro s nIdx indIdx dest t s' hI hspace h
      unfold release at h
      split at h
      · exact Option.noConfusion h
      · rename_i n hn
        split at h
        · exact Option.noConfusion h
        · rename_i ind0 hi0
          dsimp only at h
          split at h
          · exact Option.noConfusion h
          · rename_i svRef hsv
            split at h
            · exact Option.noConfusion h
            · rename_i s4 hrbi
              split at h
              · exact Option.noConfusion h
              · rename_i s5 hbsr
                set s1 := updNode s nIdx (fun m =>
                  { m with individuals := m.individuals.eraseIdx indIdx }) with hs1
                set pD := detatch_server s1 nIdx svRef
                  { ind0 with exit_date := t } with hpD
                set ind3 := write_individual_record n.id_number pD.1 with hind3
                set s3 := change_state_release pD.2 n.id_number ind3 with hs3
                have hlen0 : indIdx < n.individuals.length :=
                  (List.get?_eq_some.mp hi0).1
                have hbounds_n := Inv_get? s hI nIdx n hn
                have hI1 : simInv s1 := by
                  rw [hs1]
                  exact Inv_updNode_at s nIdx _ n hn
                    (nodeBounds_eraseIdx n indIdx hbounds_n) hI
                have hfr1 : nodesFrame s s1 := by
                  rw [hs1]
                  exact nodesFrame_updNode s nIdx _ (fun m => ⟨rfl, rfl⟩)
                have hl1at : nodeLen s1 nIdx = n.individuals.length - 1 := by
                  rw [hs1, nodeLen_updNode_at s nIdx _ n hn]
                  show (n.individuals.eraseIdx indIdx).length = _
                  rw [List.length_eraseIdx, if_pos hlen0]
                have hl1ne : ∀ k, k ≠ nIdx → nodeLen s1 k = nodeLen s k := by
                  intro k hk
                  rw [hs1]
                  exact nodeLen_updNode_ne s nIdx _ k (fun hh => hk hh.symm)
                have hpD2nodes : pD.2.nodes = (updNode s1 nIdx (fun m =>
                    { m with servers := m.servers.map (fun w =>
                      if w.ref = svRef then { w with busy := false, cust := none }
                      else w) })).nodes := by
                  rw [hpD]
                  rfl
                have hID : simInv pD.2 := by
                  refine Inv_nodes_eq _ _ hpD2nodes ?_
                  exact Inv_updNode s1 nIdx _
                    (fun m hm => (nodeBounds_congr m _ rfl rfl rfl).trans hm) hI1
                have hfrD : nodesFrame s1 pD.2 :=
                  nodesFrame_trans s1 (updNode s1 nIdx (fun m =>
                      { m with servers := m.servers.map (fun w =>
                        if w.ref = svRef
                        then { w with busy := false, cust := none }
                        else w) })) pD.2
                    (nodesFrame_updNode s1 nIdx _ (fun m => ⟨rfl, rfl⟩))
                    (nodesFrame_nodes_eq _ _ hpD2nodes)
                have hlD : ∀ k, nodeLen pD.2 k = nodeLen s1 k := by
                  intro k
                  rw [nodeLen_nodes_eq _ _ hpD2nodes k]
                  exact nodeLen_updNode s1 nIdx (fun m =>
                    { m with servers := m.servers.map (fun w =>
                      if w.ref = svRef then { w with busy := false, cust := none }
                      else w) }) (fun m => rfl) k
                have hs3nodes : s3.nodes = pD.2.nodes := by
                  rw [hs3]
                  exact change_state_release_nodes ..
                have hI3 : simInv s3 := Inv_nodes_eq _ _ hs3nodes hID
                have hfr3 : nodesFrame pD.2 s3 := nodesFrame_nodes_eq _ _ hs3nodes
                have hl3 : ∀ k, nodeLen s3 k = nodeLen pD.2 k :=
                  fun k => nodeLen_nodes_eq _ _ hs3nodes k
                have h1get : s1.nodes.get? nIdx = some
                    { n with individuals := n.individuals.eraseIdx indIdx } := by
                  rw [hs1, updNode_get?, if_pos rfl, hn]
                  rfl
                have hs3get : ∃ n3, s3.nodes.get? nIdx = some n3 ∧
                    n3.individuals = n.individuals.eraseIdx indIdx ∧
                    n3.node_capacity = n.node_capacity := by
                  rw [hs3nodes, hpD2nodes, updNode_get?, if_pos rfl, h1get]
                  exact ⟨_, rfl, rfl, rfl⟩
                have hspace3 : destHasSpace s3 (Dest.node nIdx) = true := by
                  obtain ⟨n3, hn3, hind3eq, hcap3eq⟩ := hs3get
                  show (match s3.nodes.get? nIdx with
                    | none => false
                    | some d => ltCap d.individuals.length d.node_capacity) = true
                  rw [hn3]
                  dsimp only
                  rw [hind3eq, hcap3eq, List.length_eraseIdx, if_pos hlen0]
                  unfold ltCap
                  cases hcapn : n.node_capacity with
                  | none => rfl
                  | some capv =>
                    have hcapfit :=
                      ((nodeBounds_iff n).mp hbounds_n).1 capv hcapn
                    exact decide_eq_true (lt_of_lt_of_le
                      (Nat.sub_lt (lt_of_le_of_lt (Nat.zero_le _) hlen0) one_pos)
                      hcapfit)
                obtain ⟨hI4, hfr4, hl4⟩ := ih.2 s3 nIdx t s4 hI3 hspace3 hrbi
                obtain ⟨hI5, hfr5, hl5⟩ := bsr_inv s4 nIdx t s5 hI4 hbsr
                have hmid : ∀ k, nodeLen s5 k ≤ nodeLen s k := by
                  intro k
                  rw [hl5 k]
                  by_cases hk : k = nIdx
                  · subst hk
                    have hb := hl4 k
                    rw [if_pos rfl] at hb
                    calc nodeLen s4 k ≤ nodeLen s3 k + 1 := hb
                      _ = (n.individuals.length - 1) + 1 := by
                          rw [hl3 k, hlD k, hl1at]
                      _ = n.individuals.length := Nat.sub_add_cancel
                          (Nat.succ_le_of_lt
                            (lt_of_le_of_lt (Nat.zero_le _) hlen0))
                      _ = nodeLen s k := (nodeLen_of_get? s k n hn).symm
                  · have hb := hl4 k
                    rw [if_neg hk] at hb
                    calc nodeLen s4 k ≤ nodeLen s3 k + 0 := hb
                      _ = nodeLen s k := by
                          rw [Nat.add_zero, hl3 k, hlD k, hl1ne k hk]
                have hsrv3 : ind3.server = none := by
                  rw [hind3, hpD]
                  rfl
                have hfrs5 : nodesFrame s s5 :=
                  nodesFrame_trans _ _ _ (nodesFrame_trans _ _ _
                    (nodesFrame_trans _ _ _ (nodesFrame_trans _ _ _ hfr1 hfrD)
                      hfr3) hfr4) hfr5
                have hspace5 : destHasSpace s5 dest = true := by
                  cases dest with
                  | exit => rfl
                  | node j =>
                    have hsp := hspace
                    unfold destHasSpace at hsp
                    dsimp only at hsp
                    cases hd : s.nodes.get? j with
                    | none =>
                      rw [hd] at hsp
                      exact Bool.noConfusion hsp
                    | some d =>
                      rw [hd] at hsp
                      dsimp only at hsp
                      obtain ⟨d5, hd5, hc5, hcap5⟩ := hfrs5.2 j d hd
                      show (match s5.nodes.get? j with
                        | none => false
                        | some dd =>
                            ltCap dd.individuals.length dd.node_capacity) = true
                      rw [hd5]
                      dsimp only
                      have hlen5j : d5.individuals.length ≤ d.individuals.length := by
                        have h1 := hmid j
                        rw [nodeLen_of_get? s5 j d5 hd5,
                          nodeLen_of_get? s j d hd] at h1
                        exact h1
                      rw [hcap5]
                      unfold ltCap at hsp ⊢
                      cases hcapd : d.node_capacity with
                      | none => rfl
                      | some capv =>
                        rw [hcapd] at hsp
                        exact decide_eq_true
                          (lt_of_le_of_lt hlen5j (of_decide_eq_true hsp))
                obtain ⟨hIfin, hfrfin, hlfin⟩ :=
                  acceptDest_inv S s5 dest ind3 t s' hI5 hspace5 hsrv3 h
                refine ⟨hIfin, nodesFrame_trans _ _ _ hfrs5 hfrfin, fun k => ?_⟩
                calc nodeLen s' k
                    ≤ nodeLen s5 k + (if dest = Dest.node k then 1 else 0) :=
                      hlfin k
                  _ ≤ nodeLen s k + (if dest = Dest.node k then 1 else 0) :=
                      Nat.add_le_add_right (hmid k) _
    · intro s nIdx t s' hI hspace h
      unfold release_blocked_individual at h
      split at h
      · exact Option.noConfusion h
      · rename_i n hn
        split at h
        · obtain rfl : s = s' := (Option.some.injEq ..).mp h
          exact ⟨hI, nodesFrame_rfl s, fun k => Nat.le_add_right _ _⟩
        · rename_i oid iid
          split at h
          · exact Option.noConfusion h
          · rename_i oIdx onode hgo
            split at h
            · exact Option.noConfusion h
            · rename_i ri hri
              set s1 := updNode s nIdx (fun m =>
                { m with blocked_queue := m.blocked_queue.drop 1 }) with hs1
              have hI1 : simInv s1 := by
                rw [hs1]
                exact Inv_updNode s nIdx _
                  (fun m hm => (nodeBounds_congr m _ rfl rfl rfl).trans hm) hI
              have hfr1 : nodesFrame s s1 := by
                rw [hs1]
                exact nodesFrame_updNode s nIdx _ (fun m => ⟨rfl, rfl⟩)
              have hl1 : ∀ k, nodeLen s1 k = nodeLen s k := by
                intro k
                rw [hs1]
                exact nodeLen_updNode s nIdx (fun m =>
                  { m with blocked_queue := m.blocked_queue.drop 1 })
                  (fun m => rfl) k
              have hspace1 : destHasSpace s1 (Dest.node nIdx) = true := by
                show (match s1.nodes.get? nIdx with
                  | none => false
                  | some d => ltCap d.individuals.length d.node_capacity) = true
                rw [hs1, updNode_get?, if_pos rfl, hn]
                show ltCap n.individuals.length n.node_capacity = true
                have hsp := hspace
                unfold destHasSpace at hsp
                dsimp only at hsp
                rw [hn] at hsp
                dsimp only at hsp
                exact hsp
              obtain ⟨hIfin, hfr2, hl2⟩ :=
                ih.1 s1 oIdx ri (Dest.node nIdx) t s' hI1 hspace1 h
              refine ⟨hIfin, nodesFrame_trans _ _ _ hfr1 hfr2, fun k => ?_⟩
              have hb := hl2 k
              have hbump : (if Dest.node nIdx = Dest.node k then (1 : ℕ) else 0) =
                  (if k = nIdx then 1 else 0) := by
                by_cases hk : k = nIdx
                · rw [if_pos (by rw [hk]), if_pos hk]
                · rw [if_neg (fun hc => hk (Dest.node.inj hc).symm), if_neg hk]
              rw [hbump, hl1 k] at hb
              exact hb

/-- `finish_service` preserves the C8 invariant with no side condition:
its own `destHasSpace` admission test guards the `release` branch, and
the `block_individual` branch moves nobody. -/
theorem finish_service_inv (S : ℕ → ℕ → ℚ) (rnd : ℚ) (fuel : ℕ)
    (s : SimState) (nIdx : ℕ) (s' : SimState) (hI : simInv s)
    (h : finish_service S rnd fuel s nIdx = some s') : simInv s' := by
  unfold finish_service at h
  split at h
  · exact Option.noConfusion h
  · rename_i n hn
    split at h
    · exact Option.noConfusion h
    · rename_i ned hned
      split at h
      · exact Option.noConfusion h
      · rename_i i hfind
        split at h
        · exact Option.noConfusion h
        · rename_i ind hind
          split at h
          · exact Option.noConfusion h
          · rename_i dest hdest
            split at h
            · rename_i hsp
              exact ((release_rbi_inv S fuel).1 s nIdx i dest ned s' hI hsp h).1
            · rename_i hnsp
              split at h
              · rename_i j
                exact (block_inv s nIdx i j s' hI h).1
              · exact Option.noConfusion h

/-- Freshly initialised nodes satisfy the C8 bound check. -/
theorem nodeBounds_init (id c : ℕ) (cap : Option ℕ) (row : List (List ℚ)) :
    nodeBounds (Node.init id c cap row) = true := by
  unfold nodeBounds Node.init
  cases cap <;> simp

/-- C8: under the occupancy invariant `simInv`, every node's present list
fits its admission capacity and at most `c` of its individuals hold an
attached server; the bound check holds of every freshly initialised node,
and it is preserved by every transition: by `accept` under the caller's
admission check and a serverless incomer (`accept` itself checks
nothing), by `block_individual` unconditionally, by `release` under the
admission test of the destination that `finish_service` performs, by
`release_blocked_individual` given admission space at the unblocking node
(which the `release` invoking it has just freed), and by
`finish_service` with no side condition at all, its internal
`destHasSpace` test guarding the `release` branch. -/
theorem claim_C8 (S : ℕ → ℕ → ℚ) :
    (∀ id c cap row, nodeBounds (Node.init id c cap row) = true) ∧
    (∀ s, simInv s → ∀ n ∈ s.nodes,
      (∀ cap, n.node_capacity = some cap → n.individuals.length ≤ cap) ∧
      serverCount n ≤ n.c) ∧
    (∀ s nIdx ind t s' n, simInv s → s.nodes.get? nIdx = some n →
      ltCap n.individuals.length n.node_capacity = true → ind.server = none →
      accept S s nIdx ind t = some s' → simInv s') ∧
    (∀ s nIdx indIdx destIdx s', simInv s →
      block_individual s nIdx indIdx destIdx = some s' → simInv s') ∧
    (∀ fuel s nIdx indIdx dest t s', simInv s → destHasSpace s dest = true →
      release S fuel s nIdx indIdx dest t = some s' → simInv s') ∧
    (∀ fuel s nIdx t s', simInv s → destHasSpace s (Dest.node nIdx) = true →
      release_blocked_individual S fuel s nIdx t = some s' → simInv s') ∧
    (∀ rnd fuel s nIdx s', simInv s →
      finish_service S rnd fuel s nIdx = some s' → simInv s') := by
  refine ⟨nodeBounds_init, ?_, ?_, ?_, ?_, ?_, ?_⟩
  · intro s hI n hn
    obtain ⟨h1, h2⟩ := (nodeBounds_iff n).mp (hI n hn)
    exact ⟨h1, serverCount_le_c n h2⟩
  · intro s nIdx ind t s' n hI hn hcap hsrv h
    exact (accept_inv S s nIdx ind t s' n hI hn hcap hsrv h).1
  · intro s nIdx indIdx destIdx s' hI h
    exact (block_inv s nIdx indIdx destIdx s' hI h).1
  · intro fuel s nIdx indIdx dest t s' hI hsp h
    exact ((release_rbi_inv S fuel).1 s nIdx indIdx dest t s' hI hsp h).1
  · intro fuel s nIdx t s' hI hsp h
    exact ((release_rbi_inv S fuel).2 s nIdx t s' hI hsp h).1
  · intro rnd fuel s nIdx s' hI h
    exact finish_service_inv S rnd fuel s nIdx s' hI h

/-- Witness for C8 at a concrete state: the invariant holds of
`c3state`, yielding the occupancy bounds there, and is preserved across
a concrete successful `release` to the exit node. -/
theorem claim_C8_witness :
    (simInv c3state ∧ ∀ n ∈ c3state.nodes,
      (∀ cap, n.node_capacity = some cap → n.individuals.length ≤ cap) ∧
      serverCount n ≤ n.c) ∧
    (simInv c3state ∧ destHasSpace c3state Dest.exit = true ∧
      release c3S 2 c3state 0 0 Dest.exit 5 = some c8out ∧ simInv c8out) :=
  ⟨⟨by unfold simInv; decide, (claim_C8 c3S).2.1 c3state
      (by unfold simInv; decide)⟩,
    ⟨by unfold simInv; decide, rfl, by decide,
      (claim_C8 c3S).2.2.2.2.1 2 c3state 0 0 Dest.exit 5 c8out
        (by unfold simInv; decide) rfl (by decide)⟩⟩

/-- Witness for C2 at a concrete node: the blocked individual is skipped
and the next event date is the remaining minimum, 4. -/
theorem claim_C2_witness :
    (update_next_event_date c2node 1).next_event_date = some 4 :=
  ((claim_C2 c2node 1).2 4).mpr ⟨⟨c2indA, by decide, rfl⟩, by decide⟩

/-- Witness for C7 at a concrete transition row: the cumulative row of a
freshly constructed node is the prefix-sum row. -/
theorem claim_C7_witness :
    ([[(1 : ℚ)/2, 3/4]].get? 0 = some [(1 : ℚ)/2, 3/4]) ∧
    (Node.init 1 2 none [[(1 : ℚ)/2, 3/4]]).cum_transition_row.get? 0 =
      some ((List.range 2).map
        (fun k => (([(1 : ℚ)/2, 3/4]).take (k + 1)).sum)) :=
  ⟨rfl, claim_C7.1 1 2 none [[(1 : ℚ)/2, 3/4]] 0 [(1 : ℚ)/2, 3/4] rfl⟩
